import Mathlib

/-!
# Verification of the Procure-to-Pay core against its specification

Shallow embedding of the core logic of the Procure-to-Pay backend
(`backend/procurement/views.py`, `backend/procurement/serializers.py`,
`backend/procurement/document_processor.py`, `backend/procurement/models.py`):

* the approval state machine (`approve`, `reject`, `submit-receipt` actions of
  `PurchaseRequestViewSet`, including the serializer-level validation steps);
* the field-extraction engine of `DocumentProcessor` (total amount, currency,
  vendor name, email, line items, date, invoice number), with the fixed Python
  regular expressions of the source translated into deterministic scanners
  that realise the same leftmost / greedy match semantics;
* the receipt validator (`DocumentProcessor.validate_receipt`).

`Decimal` amounts are modelled as `ℚ`; timestamps are passed in as explicit
parameters (`now`, `today`) since the source reads the wall clock.
-/

namespace P2P

/-! ## Python-style character and string helpers -/

/-- `\s` of Python `re` on ASCII text: space, tab, newline, carriage return,
vertical tab, form feed. -/
def pySpace (c : Char) : Bool :=
  c = ' ' || c = '\t' || c = '\n' || c = '\r' || c = '\x0b' || c = '\x0c'

/-- Characters `\n` / `\r`, excluded by the `[^\n\r]` class. -/
def isNL (c : Char) : Bool := c = '\n' || c = '\r'

/-- `str.lower` (ASCII; all strings handled by the claims are ASCII). -/
def pyLower (s : String) : String := ⟨s.data.map Char.toLower⟩

/-- `str.upper` (ASCII). -/
def pyUpper (s : String) : String := ⟨s.data.map Char.toUpper⟩

/-- Python `sub in s` on lists of characters: substring containment. -/
def pyInL (sub s : List Char) : Bool :=
  s.tails.any (fun t => sub.isPrefixOf t)

/-- Python `sub in s` for strings. -/
def pyIn (sub s : String) : Bool := pyInL sub.data s.data

/-- Python `c in s` for a single character. -/
def pyInChar (c : Char) (s : String) : Bool := s.data.contains c

/-- `str.strip()`: drop whitespace from both ends. -/
def pyStrip (cs : List Char) : List Char :=
  ((cs.dropWhile pySpace).reverse.dropWhile pySpace).reverse

/-- Case-insensitive literal matcher: `ciStrip pat cs` consumes a prefix of
`cs` whose lowercased characters are exactly `pat` (given lowercase), and
returns the rest.  Realises a fixed word under `re.IGNORECASE`. -/
def ciStrip : List Char → List Char → Option (List Char)
  | [], cs => some cs
  | _ :: _, [] => none
  | p :: ps, c :: cs => if c.toLower = p then ciStrip ps cs else none

/-- Value of a digit string, most significant first. -/
def digitsToNat (cs : List Char) : Nat :=
  cs.foldl (fun a c => 10 * a + (c.toNat - '0'.toNat)) 0

/-- `Decimal(s)` of Python on the shapes producible here:
`digits` or `digits.digits`.  Returns `none` on any other shape, mirroring the
`except (InvalidOperation, ValueError): continue` guard of the source. -/
def parsePyDecimal (cs : List Char) : Option ℚ :=
  let ip := cs.takeWhile (fun c => c ≠ '.')
  match cs.dropWhile (fun c => c ≠ '.') with
  | [] => if ip ≠ [] ∧ ip.all Char.isDigit then some (digitsToNat ip) else none
  | '.' :: fp =>
      if ip ≠ [] ∧ fp ≠ [] ∧ ip.all Char.isDigit ∧ fp.all Char.isDigit then
        some ((digitsToNat ip : ℚ) + (digitsToNat fp : ℚ) / (10 : ℚ) ^ fp.length)
      else none
  | _ => none

/-- `match.replace(',', '')` followed by `Decimal(...)` (source
`_extract_total_amount`, lines 336-339). -/
def pyAmount (cs : List Char) : Option ℚ :=
  parsePyDecimal (cs.filter (fun c => c ≠ ','))

/-! ## The number patterns of `_extract_total_amount`

The source collects amounts with three regexes (document_processor.py 325-329):

* (a) `(?:TOTAL|AMOUNT|SUM)[:]\s*\$?(\d+(?:,\d{3})*(?:\.\d{2})?)`
* (b) `\$(\d+(?:,\d{3})*(?:\.\d{2})?)`
* (c) `(\d+(?:,\d{3})*\.\d{2})(?:\s*USD|$)`

all with `re.IGNORECASE` and no `re.MULTILINE` (so `$` matches the end of the
whole text, or just before a final newline).  The shared numeric core
`\d+(?:,\d{3})*(\.\d{2})?` is realised by `parseNum`.  For these regexes the
greedy backtracking search of `re` never succeeds on anything but the
maximal-munch alternative: every shorter choice of `\d+` or of the
`(?:,\d{3})*` repetitions leaves a digit or a comma at a position where the
pattern next requires `,`, `.`, `$`-anchor, whitespace or a letter, so
maximal munch is the exact match semantics. -/

/-- Greedy `(?:,\d{3})*`: consume groups of a comma followed by exactly three
digits; return the consumed characters and the rest. -/
def commaGroups : List Char → List Char × List Char
  | ',' :: a :: b :: c :: rest =>
      if a.isDigit && b.isDigit && c.isDigit then
        let p := commaGroups rest
        (',' :: a :: b :: c :: p.1, p.2)
      else ([], ',' :: a :: b :: c :: rest)
  | cs => ([], cs)

/-- Greedy match of `\d+(?:,\d{3})*(?:\.\d{2})?` (with `strict` false) or of
`\d+(?:,\d{3})*\.\d{2}` (with `strict` true) at the head of the input; returns
the matched characters and the rest. -/
def parseNum (strict : Bool) (cs : List Char) : Option (List Char × List Char) :=
  let ds := cs.takeWhile Char.isDigit
  if ds.isEmpty then none
  else
    let p := commaGroups (cs.dropWhile Char.isDigit)
    match p.2 with
    | '.' :: a :: b :: r =>
        if a.isDigit && b.isDigit then some (ds ++ p.1 ++ ['.', a, b], r)
        else if strict then none else some (ds ++ p.1, p.2)
    | _ => if strict then none else some (ds ++ p.1, p.2)

/-- The label alternation `(?:TOTAL|AMOUNT|SUM)` of pattern (a), in source
order, case-insensitively. -/
def labelAt1 (cs : List Char) : Option (List Char) :=
  match ciStrip ['t', 'o', 't', 'a', 'l'] cs with
  | some r => some r
  | none =>
      match ciStrip ['a', 'm', 'o', 'u', 'n', 't'] cs with
      | some r => some r
      | none => ciStrip ['s', 'u', 'm'] cs

/-- The optional dollar sign `\$?` before the number of pattern (a). -/
def stripDollar : List Char → List Char
  | '$' :: t => t
  | r => r

/-- Pattern (a) at the current position: label, `:`, `\s*`, optional `$`,
then the number.  Returns (capture, rest after the full match). -/
def match1At (cs : List Char) : Option (List Char × List Char) :=
  match labelAt1 cs with
  | some (':' :: r) => parseNum false (stripDollar (r.dropWhile pySpace))
  | _ => none

/-- Pattern (b) at the current position: `\$` then the number. -/
def match2At (cs : List Char) : Option (List Char × List Char) :=
  match cs with
  | '$' :: t => parseNum false t
  | _ => none

/-- The `(?:\s*USD|$)` tail of pattern (c): either whitespace then `USD`
(case-insensitive), or the end of the text (`$` without `re.MULTILINE` also
matches just before a final newline).  Returns the rest after the consumed
characters (the `$` anchor is zero-width). -/
def usdOrEnd (rest : List Char) : Option (List Char) :=
  match ciStrip ['u', 's', 'd'] (rest.dropWhile pySpace) with
  | some r => some r
  | none => if rest = [] ∨ rest = ['\n'] then some rest else none

/-- Pattern (c) at the current position. -/
def match3At (cs : List Char) : Option (List Char × List Char) :=
  match parseNum true cs with
  | some (cap, rest) => (usdOrEnd rest).map (fun r => (cap, r))
  | none => none

/-! ### Structural lemmas about the matchers -/

theorem ciStrip_length {p cs r : List Char} (h : ciStrip p cs = some r) :
    r.length + p.length = cs.length := by
  induction p generalizing cs with
  | nil => simp [ciStrip] at h; simp [h]
  | cons x xs ih =>
    cases cs with
    | nil => simp [ciStrip] at h
    | cons c t =>
      simp only [ciStrip] at h
      split at h
      · have := ih h; simp only [List.length_cons]; omega
      · exact absurd h (by simp)

theorem commaGroups_append (cs : List Char) :
    (commaGroups cs).1 ++ (commaGroups cs).2 = cs := by
  induction cs using commaGroups.induct with
  | case1 a b c rest h ih =>
    simp only [commaGroups, h, if_true]
    simpa using ih
  | case2 a b c rest h => simp [commaGroups, h]
  | case3 cs h =>
    rw [commaGroups.eq_def]
    split
    · rename_i a b c rest; exact absurd rfl (h a b c rest)
    · simp

theorem commaGroups_chars {cs : List Char} {x : Char} (hx : x ∈ (commaGroups cs).1) :
    x = ',' ∨ x.isDigit := by
  induction cs using commaGroups.induct with
  | case1 a b c rest h ih =>
    simp only [commaGroups, h, if_true, List.mem_cons] at hx
    simp only [Bool.and_eq_true] at h
    rcases hx with rfl | rfl | rfl | rfl | hx
    · exact Or.inl rfl
    · exact Or.inr h.1.1
    · exact Or.inr h.1.2
    · exact Or.inr h.2
    · exact ih hx
  | case2 a b c rest h => simp [commaGroups, h] at hx
  | case3 cs h =>
    rw [commaGroups.eq_def] at hx
    split at hx
    · rename_i a b c rest; exact absurd rfl (h a b c rest)
    · simp at hx

theorem length_dropWhile_le (p : Char → Bool) (l : List Char) :
    (l.dropWhile p).length ≤ l.length := by
  have h := congrArg List.length (List.takeWhile_append_dropWhile p l)
  simp only [List.length_append] at h
  omega

theorem parseNum_append {b : Bool} {cs cap rest : List Char}
    (h : parseNum b cs = some (cap, rest)) : cap ++ rest = cs ∧ cap ≠ [] := by
  unfold parseNum at h
  set ds := cs.takeWhile Char.isDigit with hds
  by_cases hne : ds.isEmpty
  · simp [hne] at h
  · simp only [hne, if_false, Bool.false_eq_true] at h
    have hsplit : ds ++ (commaGroups (cs.dropWhile Char.isDigit)).1 ++
        (commaGroups (cs.dropWhile Char.isDigit)).2 = cs := by
      rw [List.append_assoc, commaGroups_append, hds,
        List.takeWhile_append_dropWhile]
    set g := commaGroups (cs.dropWhile Char.isDigit) with hg
    have hdsne : ds ≠ [] := by simpa [List.isEmpty_iff] using hne
    split at h
    · rename_i a b' r harm
      split at h
      · rename_i hdig
        rw [Option.some_inj, Prod.mk.injEq] at h
        obtain ⟨h1, h2⟩ := h
        subst h1; subst h2
        constructor
        · rw [← hsplit, harm]; simp
        · simp [hdsne]
      · split at h
        · simp at h
        · rw [Option.some_inj, Prod.mk.injEq] at h
          obtain ⟨h1, h2⟩ := h
          subst h1; subst h2
          exact ⟨hsplit, by simp [hdsne]⟩
    · split at h
      · simp at h
      · rw [Option.some_inj, Prod.mk.injEq] at h
        obtain ⟨h1, h2⟩ := h
        subst h1; subst h2
        exact ⟨hsplit, by simp [hdsne]⟩

theorem parseNum_chars {b : Bool} {cs cap rest : List Char}
    (h : parseNum b cs = some (cap, rest)) :
    ∀ x ∈ cap, x.isDigit ∨ x = ',' ∨ x = '.' := by
  unfold parseNum at h
  set ds := cs.takeWhile Char.isDigit with hds
  by_cases hne : ds.isEmpty
  · simp [hne] at h
  · simp only [hne, if_false, Bool.false_eq_true] at h
    set g := commaGroups (cs.dropWhile Char.isDigit) with hg
    have hdsdig : ∀ x ∈ ds, x.isDigit := fun x hx => List.mem_takeWhile_imp (hds ▸ hx)
    have hgchars : ∀ x ∈ g.1, x = ',' ∨ x.isDigit := fun x hx => commaGroups_chars hx
    split at h
    · rename_i a b' r harm
      split at h
      · rename_i hdig
        rw [Option.some_inj, Prod.mk.injEq] at h
        obtain ⟨h1, h2⟩ := h
        subst h1; subst h2
        intro x hx
        simp only [List.mem_append, List.mem_cons, List.mem_singleton] at hx
        rcases hx with (hx | hx) | hx | hx | hx
        · exact Or.inl (hdsdig x hx)
        · rcases hgchars x hx with h | h
          · exact Or.inr (Or.inl h)
          · exact Or.inl h
        · subst hx; exact Or.inr (Or.inr rfl)
        · subst hx; simp only [Bool.and_eq_true] at hdig; exact Or.inl hdig.1
        · simp at hx; subst hx; simp only [Bool.and_eq_true] at hdig; exact Or.inl hdig.2
      · split at h
        · simp at h
        · rw [Option.some_inj, Prod.mk.injEq] at h
          obtain ⟨h1, h2⟩ := h
          subst h1; subst h2
          intro x hx
          rcases List.mem_append.mp hx with hx | hx
          · exact Or.inl (hdsdig x hx)
          · rcases hgchars x hx with h | h
            · exact Or.inr (Or.inl h)
            · exact Or.inl h
    · split at h
      · simp at h
      · rw [Option.some_inj, Prod.mk.injEq] at h
        obtain ⟨h1, h2⟩ := h
        subst h1; subst h2
        intro x hx
        rcases List.mem_append.mp hx with hx | hx
        · exact Or.inl (hdsdig x hx)
        · rcases hgchars x hx with h | h
          · exact Or.inr (Or.inl h)
          · exact Or.inl h

theorem parseNum_length {b : Bool} {cs cap rest : List Char}
    (h : parseNum b cs = some (cap, rest)) : rest.length < cs.length := by
  obtain ⟨happ, hne⟩ := parseNum_append h
  have := congrArg List.length happ
  simp only [List.length_append] at this
  have : cap.length ≠ 0 := fun h0 => hne (List.length_eq_zero.mp h0)
  omega

theorem labelAt1_length {cs r : List Char} (h : labelAt1 cs = some r) :
    r.length + 3 ≤ cs.length := by
  unfold labelAt1 at h
  rcases hm : ciStrip ['t', 'o', 't', 'a', 'l'] cs with _ | r1 <;>
    rw [hm] at h
  · rcases hm2 : ciStrip ['a', 'm', 'o', 'u', 'n', 't'] cs with _ | r2 <;>
      rw [hm2] at h
    · have := ciStrip_length h
      simp only [List.length] at this
      omega
    · rw [Option.some_inj] at h
      subst h
      have := ciStrip_length hm2
      simp only [List.length] at this
      omega
  · rw [Option.some_inj] at h
    subst h
    have := ciStrip_length hm
    simp only [List.length] at this
    omega

theorem stripDollar_length (r : List Char) : (stripDollar r).length ≤ r.length := by
  unfold stripDollar
  split
  · simp
  · exact le_refl _

theorem match1At_length {cs cap rest : List Char}
    (h : match1At cs = some (cap, rest)) : rest.length < cs.length := by
  unfold match1At at h
  split at h
  · rename_i r hlab
    have h1 := labelAt1_length hlab
    have h2 := parseNum_length h
    have h3 := stripDollar_length (r.dropWhile pySpace)
    have h4 := length_dropWhile_le pySpace r
    simp only [List.length_cons] at h1
    omega
  · exact absurd h (by simp)

theorem match2At_length {cs cap rest : List Char}
    (h : match2At cs = some (cap, rest)) : rest.length < cs.length := by
  unfold match2At at h
  split at h
  · rename_i t
    have := parseNum_length h
    simp only [List.length_cons]
    omega
  · exact absurd h (by simp)

theorem usdOrEnd_length {rest r : List Char} (h : usdOrEnd rest = some r) :
    r.length ≤ rest.length := by
  unfold usdOrEnd at h
  split at h
  · rename_i r' hm
    rw [Option.some_inj] at h
    subst h
    have := ciStrip_length hm
    have := length_dropWhile_le pySpace rest
    simp only [List.length] at this ⊢
    omega
  · split at h
    · rw [Option.some_inj] at h; subst h; exact le_refl _
    · exact absurd h (by simp)

theorem match3At_length {cs cap rest : List Char}
    (h : match3At cs = some (cap, rest)) : rest.length < cs.length := by
  unfold match3At at h
  split at h
  · rename_i cap' rest' hpn
    simp only [Option.map_eq_some'] at h
    obtain ⟨r, hr, heq⟩ := h
    rw [Prod.mk.injEq] at heq
    obtain ⟨h1, h2⟩ := heq
    subst h1; subst h2
    have := parseNum_length hpn
    have := usdOrEnd_length hr
    omega
  · exact absurd h (by simp)

/-! ### `re.findall` -/

/-- One `re.findall` scan, fuelled (the fuel bounds the number of remaining
positions, so structural recursion on the fuel realises the scan and the
definition computes by kernel reduction).  At each position: if the pattern
matches, record the capture and resume after the consumed characters,
otherwise advance one character. -/
def findallGo (m : List Char → Option (List Char × List Char)) :
    Nat → List Char → List (List Char)
  | 0, _ => []
  | fuel + 1, cs =>
      match m cs with
      | some (cap, rest) => cap :: findallGo m fuel rest
      | none =>
          match cs with
          | [] => []
          | _ :: t => findallGo m fuel t

/-- `re.findall` of a pattern (given by its match-at-a-position function)
over a text. -/
def findall (m : List Char → Option (List Char × List Char))
    (cs : List Char) : List (List Char) :=
  findallGo m (cs.length + 1) cs

/-- A matcher that always consumes at least one character. -/
def Shrinking (m : List Char → Option (List Char × List Char)) : Prop :=
  ∀ cs cap rest, m cs = some (cap, rest) → rest.length < cs.length

theorem findallGo_fuel {m} (hm : Shrinking m) :
    ∀ f1 f2 cs, cs.length < f1 → cs.length < f2 →
      findallGo m f1 cs = findallGo m f2 cs := by
  intro f1
  induction f1 with
  | zero => intro f2 cs h1; omega
  | succ f1 ih =>
    intro f2 cs h1 h2
    cases f2 with
    | zero => omega
    | succ f2 =>
      simp only [findallGo]
      rcases hmc : m cs with _ | ⟨cap, rest⟩
      · cases cs with
        | nil => rfl
        | cons c t =>
          simp only [List.length_cons] at h1 h2
          exact ih f2 t (by omega) (by omega)
      · have := hm cs cap rest hmc
        exact congrArg (cap :: ·) (ih f2 rest (by omega) (by omega))

/-- The one-step unfolding of `findall`. -/
theorem findall_eq {m} (hm : Shrinking m) (cs : List Char) :
    findall m cs =
      match m cs with
      | some (cap, rest) => cap :: findall m rest
      | none =>
          match cs with
          | [] => []
          | _ :: t => findall m t := by
  unfold findall
  rcases hmc : m cs with _ | ⟨cap, rest⟩
  · simp only [findallGo, hmc]
    cases cs with
    | nil => rfl
    | cons c t =>
      simp only [List.length_cons]
      exact findallGo_fuel hm (t.length + 1) (t.length + 1) t (by omega) (by omega)
  · simp only [findallGo, hmc]
    have hlt := hm cs cap rest hmc
    exact congrArg (cap :: ·)
      (findallGo_fuel hm cs.length (rest.length + 1) rest (by omega) (by omega))

theorem match1At_shrinking : Shrinking match1At := fun _ _ _ h => match1At_length h
theorem match2At_shrinking : Shrinking match2At := fun _ _ _ h => match2At_length h
theorem match3At_shrinking : Shrinking match3At := fun _ _ _ h => match3At_length h

/-- `re.findall` for pattern (a). -/
def scan1 (cs : List Char) : List (List Char) := findall match1At cs

/-- `re.findall` for pattern (b). -/
def scan2 (cs : List Char) : List (List Char) := findall match2At cs

/-- `re.findall` for pattern (c). -/
def scan3 (cs : List Char) : List (List Char) := findall match3At cs

/-- `DocumentProcessor._extract_total_amount` (document_processor.py 322-344):
run the three patterns in order, parse each captured amount with commas
removed, and return the largest amount found, `0.00` if none. -/
def extract_total_amount (text : String) : ℚ :=
  let caps := scan1 text.data ++ scan2 text.data ++ scan3 text.data
  let amounts := caps.filterMap pyAmount
  match amounts with
  | [] => 0
  | a :: as => as.foldl max a

/-- `DocumentProcessor._extract_currency` (document_processor.py 346-358):
first of the five codes contained (case-insensitively) in the text, else
`USD` on a `$` glyph, else `EUR` on a `€` glyph, else `USD`. -/
def extract_currency (text : String) : String :=
  match ["USD", "EUR", "RWF", "KES", "UGX"].find? (fun c => pyIn c (pyUpper text)) with
  | some c => c
  | none =>
      if pyInChar '$' text then "USD"
      else if pyInChar '€' text then "EUR"
      else "USD"

/-! ## Vendor-name extraction

`DocumentProcessor._extract_vendor_name` (document_processor.py 259-273)
tries three regexes (with `re.IGNORECASE | re.MULTILINE`) in order and
returns the first pattern's first match, stripped; `"Unknown Vendor"` if
none matches:

1. `(?:FROM|VENDOR|SUPPLIER|COMPANY)[:]\s*([^\n\r]+)`
2. `([A-Z][a-zA-Z\s&,.-]+(?:Ltd|LLC|Inc|Corp|Company|Co\.))`
3. `^([A-Z][a-zA-Z\s&,.-]{10,50})`

Only the leftmost match is used (`matches[0]`), so the scanners below advance
one position at a time until the first match. -/

/-- First match of a pattern over all positions of the text
(the `matches[0]` of an `re.findall`, i.e. `re.search`). -/
def firstMatch (m : List Char → Option (List Char)) : List Char → Option (List Char)
  | [] => m []
  | c :: t =>
      match m (c :: t) with
      | some cap => some cap
      | none => firstMatch m t

/-- First match of a `^`-anchored pattern under `re.MULTILINE`: positions at
the start of the text or just after a newline. -/
def firstMatchML (m : List Char → Option (List Char)) : Bool → List Char → Option (List Char)
  | atStart, [] => if atStart then m [] else none
  | atStart, c :: t =>
      match (if atStart then m (c :: t) else none) with
      | some cap => some cap
      | none => firstMatchML m (c = '\n') t

/-- Try each element in order, returning the first hit (realises the
preference order of greedy regex backtracking). -/
def firstSome : List α → (α → Option β) → Option β
  | [], _ => none
  | x :: xs, f =>
      match f x with
      | some y => some y
      | none => firstSome xs f

/-- The label alternation `(?:FROM|VENDOR|SUPPLIER|COMPANY)` in source order,
case-insensitively.  (The four labels have distinct first letters, so regex
alternation backtracking never changes the outcome.) -/
def labelAtV (cs : List Char) : Option (List Char) :=
  match ciStrip ['f', 'r', 'o', 'm'] cs with
  | some r => some r
  | none =>
      match ciStrip ['v', 'e', 'n', 'd', 'o', 'r'] cs with
      | some r => some r
      | none =>
          match ciStrip ['s', 'u', 'p', 'p', 'l', 'i', 'e', 'r'] cs with
          | some r => some r
          | none => ciStrip ['c', 'o', 'm', 'p', 'a', 'n', 'y'] cs

/-- Vendor pattern 1 at a position.  After `label:` the regex runs
`\s*([^\n\r]+)`: greedy `\s*` first, then a non-empty capture.  If the
capture would be empty at the full-whitespace position (which, whitespace
being maximal, happens exactly when nothing follows the whitespace), `re`
backtracks `\s*` to the last non-newline whitespace character and captures
just it. -/
def vendor1At (cs : List Char) : Option (List Char) :=
  match labelAtV cs with
  | some (':' :: r) =>
      let sp := r.takeWhile pySpace
      let rest := r.dropWhile pySpace
      let full := rest.takeWhile (fun c => !isNL c)
      if full ≠ [] then some full
      else
        match (sp.filter (fun c => !isNL c)).getLast? with
        | some c => some [c]
        | none => none
  | _ => none

/-- The character class `[a-zA-Z\s&,.-]` of vendor patterns 2 and 3. -/
def bodyChar (c : Char) : Bool :=
  c.isAlpha || pySpace c || c = '&' || c = ',' || c = '.' || c = '-'

/-- The legal-entity suffix alternation `(?:Ltd|LLC|Inc|Corp|Company|Co\.)`
in source order (lowercase for the case-insensitive matcher). -/
def entitySuffixes : List (List Char) :=
  [['l', 't', 'd'], ['l', 'l', 'c'], ['i', 'n', 'c'],
   ['c', 'o', 'r', 'p'], ['c', 'o', 'm', 'p', 'a', 'n', 'y'], ['c', 'o', '.']]

/-- Vendor pattern 2 at a position: a letter (`[A-Z]` under `IGNORECASE`),
then `[a-zA-Z\s&,.-]+` (greedy, longest first), then an entity suffix.  All
suffix characters are themselves in the body class, so the suffix always lies
inside the maximal body run; trying body lengths longest-first and suffixes
in alternation order realises the regex preference exactly. -/
def vendor2At (cs : List Char) : Option (List Char) :=
  match cs with
  | [] => none
  | c :: t =>
      if c.isAlpha then
        let B := t.takeWhile bodyChar
        firstSome (List.range (B.length + 1)).reverse (fun j =>
          if j = 0 then none
          else
            firstSome entitySuffixes (fun sfx =>
              match ciStrip sfx (B.drop j) with
              | some _ => some (c :: B.take (j + sfx.length))
              | none => none))
      else none

/-- Vendor pattern 3 at a line-start position: a letter, then 10-50 body
characters, greedy (50 first; nothing follows in the pattern, so the greedy
choice is final). -/
def vendor3At (cs : List Char) : Option (List Char) :=
  match cs with
  | [] => none
  | c :: t =>
      if c.isAlpha then
        let R := t.takeWhile bodyChar
        if 10 ≤ min 50 R.length then some (c :: R.take (min 50 R.length)) else none
      else none

/-- `DocumentProcessor._extract_vendor_name`. -/
def extract_vendor_name (text : String) : String :=
  match firstMatch vendor1At text.data with
  | some cap => ⟨pyStrip cap⟩
  | none =>
      match firstMatch vendor2At text.data with
      | some cap => ⟨pyStrip cap⟩
      | none =>
          match firstMatchML vendor3At true text.data with
          | some cap => ⟨pyStrip cap⟩
          | none => "Unknown Vendor"

/-! ## Email extraction

`DocumentProcessor._extract_email` (275-279):
`\b[A-Za-z0-9._%+-]+@[A-Za-z0-9.-]+\.[A-Z|a-z]{2,}\b`, first match or `""`.
The scanner tracks the previous character for the `\b` word-boundary test. -/

def localChar (c : Char) : Bool :=
  c.isAlphanum || c = '.' || c = '_' || c = '%' || c = '+' || c = '-'

def domChar (c : Char) : Bool := c.isAlphanum || c = '.' || c = '-'

/-- The goofy class `[A-Z|a-z]` of the source: letters and the bar. -/
def tldChar (c : Char) : Bool := c.isAlpha || c = '|'

def wordChar (c : Char) : Bool := c.isAlphanum || c = '_'

/-- `\b` between an optional previous character and an optional next one. -/
def wordBoundary (prev next : Option Char) : Bool :=
  (match prev with | none => false | some p => wordChar p) ≠
    (match next with | none => false | some n => wordChar n)

/-- The email pattern at a position (`prev` = preceding character, if any).
The local part and the `@` are forced (any shorter greedy choice leaves a
local-class character where `@` is required); the domain dot position and the
TLD length are searched longest-first, as regex backtracking does. -/
def emailAt (prev : Option Char) (cs : List Char) : Option (List Char) :=
  let loc := cs.takeWhile localChar
  match loc with
  | [] => none
  | l0 :: _ =>
      if wordBoundary prev (some l0) then
        match cs.drop loc.length with
        | '@' :: dpart =>
            let D := dpart.takeWhile domChar
            let after := dpart.drop D.length
            firstSome (List.range D.length).reverse (fun d =>
              if d = 0 then none
              else if (D.drop d).headD ' ' ≠ '.' then none
              else
                let tldRun := (D.drop (d + 1) ++ after).takeWhile tldChar
                firstSome (List.range (tldRun.length + 1)).reverse (fun j =>
                  if j < 2 then none
                  else
                    let lastc := (tldRun.take j).getLastD ' '
                    let next := ((D.drop (d + 1) ++ after).drop j).head?
                    if wordBoundary (some lastc) next then
                      some (loc ++ '@' :: D.take d ++ '.' :: tldRun.take j)
                    else none))
        | _ => none
      else none

/-- Scan for the first email match, tracking the previous character. -/
def emailScan (prev : Option Char) : List Char → Option (List Char)
  | [] => emailAt prev []
  | c :: t =>
      match emailAt prev (c :: t) with
      | some cap => some cap
      | none => emailScan (some c) t

/-- `DocumentProcessor._extract_email`. -/
def extract_email (text : String) : String :=
  match emailScan none text.data with
  | some cap => ⟨cap⟩
  | none => ""

/-! ## Line-item extraction

`DocumentProcessor._extract_line_items` (281-320): per line of the text,
`re.search(r'(\d+(?:\.\d+)?)\s+(.{10,50})\s+(\d+(?:\.\d{2})?)')`; each match
yields an item `{name := desc.strip(), quantity, unit_price,
total_price := quantity*unit_price}`.  If no line matches and the extracted
total is positive, one synthetic generic item is produced. -/

structure LineItem where
  name : String
  quantity : ℚ
  unit_price : ℚ
  total_price : ℚ
  deriving DecidableEq, Repr

/-- The item pattern at a position of a line.  The quantity (`\d+(?:\.\d+)?`)
and both `\s+` runs are forced maximal (any shorter greedy choice leaves a
digit/whitespace character where the pattern next requires whitespace or a
digit); the first `\s+` length and the `.{10,50}` length are searched
longest-first per regex preference. -/
def itemAt (cs : List Char) : Option (List Char × List Char × List Char) :=
  let run := cs.takeWhile Char.isDigit
  if run.isEmpty then none
  else
    let afterRun := cs.drop run.length
    let qr : List Char × List Char :=
      match afterRun with
      | '.' :: t =>
          let f := t.takeWhile Char.isDigit
          if f.isEmpty then (run, afterRun) else (run ++ '.' :: f, t.drop f.length)
      | _ => (run, afterRun)
    let sp1 := qr.2.takeWhile pySpace
    firstSome (List.range (sp1.length + 1)).reverse (fun s1 =>
      if s1 = 0 then none
      else
        let afterS1 := qr.2.drop s1
        firstSome (List.range 51).reverse (fun bLen =>
          if bLen < 10 then none
          else if afterS1.length < bLen then none
          else if (afterS1.take bLen).any (fun c => c = '\n') then none
          else
            let desc := afterS1.take bLen
            let afterB := afterS1.drop bLen
            let sp2 := afterB.takeWhile pySpace
            if sp2.isEmpty then none
            else
              let prun := (afterB.drop sp2.length).takeWhile Char.isDigit
              if prun.isEmpty then none
              else
                let afterP := afterB.drop (sp2.length + prun.length)
                let price :=
                  match afterP with
                  | '.' :: a :: b :: _ =>
                      if a.isDigit && b.isDigit then prun ++ ['.', a, b] else prun
                  | _ => prun
                some (qr.1, desc, price)))

/-- `re.search` of the item pattern over one line. -/
def itemSearch : List Char → Option (List Char × List Char × List Char)
  | [] => itemAt []
  | c :: t =>
      match itemAt (c :: t) with
      | some m => some m
      | none => itemSearch t

/-- `DocumentProcessor._extract_line_items`. -/
def extract_line_items (text : String) : List LineItem :=
  let items := (text.splitOn "\n").filterMap (fun line =>
    (itemSearch line.data).bind (fun m =>
      match parsePyDecimal m.1, parsePyDecimal m.2.2 with
      | some q, some p =>
          some ⟨⟨pyStrip m.2.1⟩, q, p, q * p⟩
      | _, _ => none))
  if items.isEmpty then
    let total := extract_total_amount text
    if 0 < total then
      [⟨"Generic Item (extracted from total)", 1, total, total⟩]
    else []
  else items

/-! ## Date and invoice-number extraction -/

/-- `(\d{4}-\d{2}-\d{2})` at a position. -/
def dateAt1 : List Char → Option (List Char)
  | a :: b :: c :: d :: '-' :: e :: f :: '-' :: g :: h :: _ =>
      if [a, b, c, d, e, f, g, h].all Char.isDigit then
        some [a, b, c, d, '-', e, f, '-', g, h]
      else none
  | _ => none

/-- `(\d{2}/\d{2}/\d{4})` at a position. -/
def dateAt2 : List Char → Option (List Char)
  | a :: b :: '/' :: c :: d :: '/' :: e :: f :: g :: h :: _ =>
      if [a, b, c, d, e, f, g, h].all Char.isDigit then
        some [a, b, '/', c, d, '/', e, f, g, h]
      else none
  | _ => none

/-- `(\d{2}-\d{2}-\d{4})` at a position. -/
def dateAt3 : List Char → Option (List Char)
  | a :: b :: '-' :: c :: d :: '-' :: e :: f :: g :: h :: _ =>
      if [a, b, c, d, e, f, g, h].all Char.isDigit then
        some [a, b, '-', c, d, '-', e, f, g, h]
      else none
  | _ => none

/-- `DocumentProcessor._extract_date` (360-373); `today` stands for
`datetime.now().strftime('%Y-%m-%d')`. -/
def extract_date (today : String) (text : String) : String :=
  match firstMatch dateAt1 text.data with
  | some cap => ⟨cap⟩
  | none =>
      match firstMatch dateAt2 text.data with
      | some cap => ⟨cap⟩
      | none =>
          match firstMatch dateAt3 text.data with
          | some cap => ⟨cap⟩
          | none => today

/-- The capture class `[A-Z0-9-]` under `IGNORECASE`. -/
def invChar (c : Char) : Bool := c.isAlphanum || c = '-'

/-- After a matched `label:`, run `\s*` then capture `[A-Z0-9-]+` (whitespace
and the capture class are disjoint, so greedy matching is deterministic). -/
def invCapAfter (r : List Char) : Option (List Char) :=
  let cap := (r.dropWhile pySpace).takeWhile invChar
  if cap.isEmpty then none else some cap

/-- `(?:INVOICE|INV)[:]\s*([A-Z0-9-]+)` at a position (`INVOICE` tried before
`INV` per alternation order; if `INVOICE` matches, `INV` followed by `:`
cannot also match, so no backtracking across the alternation arises). -/
def invoiceAt1 (cs : List Char) : Option (List Char) :=
  let lab :=
    match ciStrip ['i', 'n', 'v', 'o', 'i', 'c', 'e'] cs with
    | some r => some r
    | none => ciStrip ['i', 'n', 'v'] cs
  match lab with
  | some (':' :: r) => invCapAfter r
  | _ => none

/-- `(?:NO|NUMBER)[:]\s*([A-Z0-9-]+)` at a position. -/
def invoiceAt2 (cs : List Char) : Option (List Char) :=
  let lab :=
    match ciStrip ['n', 'o'] cs with
    | some r => some r
    | none => ciStrip ['n', 'u', 'm', 'b', 'e', 'r'] cs
  match lab with
  | some (':' :: r) => invCapAfter r
  | _ => none

/-- `DocumentProcessor._extract_invoice_number` (375-387); `todayCompact`
stands for `datetime.now().strftime('%Y%m%d')`. -/
def extract_invoice_number (todayCompact : String) (text : String) : String :=
  match firstMatch invoiceAt1 text.data with
  | some cap => ⟨cap⟩
  | none =>
      match firstMatch invoiceAt2 text.data with
      | some cap => ⟨cap⟩
      | none => "INV-" ++ todayCompact ++ "-AUTO"

/-! ## Proforma extraction (`extract_proforma_data`, 33-83)

The `try` body builds the extracted-data dictionary from the text; the
`except` branch substitutes fixed demo data carrying the error text in
`raw_text`.  Text extraction from the file binary (OCR / PDF) is the external
collaborator; its outcome is modelled as `Except String String`: `.ok text`
when text was produced, `.error e` when anything in the `try` body raised. -/

structure ExtractedDoc where
  vendor_name : String
  vendor_email : String
  items : List LineItem
  total_amount : ℚ
  currency : String
  due_date : String
  invoice_number : String
  raw_text : String
  /-- the `demo_mode` key, present (True) only in the fallback dictionary -/
  demo_mode : Bool
  deriving DecidableEq, Repr

/-- The `try` body of `extract_proforma_data` applied to extracted text. -/
def extractFromText (today todayCompact : String) (text : String) : ExtractedDoc where
  vendor_name := extract_vendor_name text
  vendor_email := extract_email text
  items := extract_line_items text
  total_amount := extract_total_amount text
  currency := extract_currency text
  due_date := extract_date today text
  invoice_number := extract_invoice_number todayCompact text
  raw_text := text
  demo_mode := false

/-- The `except` branch of `extract_proforma_data` (66-83): fixed demo data,
with the failure reason folded into `raw_text`. -/
def demoData (errMsg : String) : ExtractedDoc where
  vendor_name := "Demo Vendor Ltd"
  vendor_email := "demo@vendor.com"
  items := [⟨"Demo Item", 1, 100, 100⟩]
  total_amount := 100
  currency := "USD"
  due_date := "2024-12-31"
  invoice_number := "DEMO-001"
  raw_text := "Demo processing (error: " ++ errMsg ++ ")"
  demo_mode := true

/-- `DocumentProcessor.extract_proforma_data`: total on every input — the
failure of any internal step is swallowed and replaced by the demo fallback. -/
def extract_proforma_data (today todayCompact : String)
    (input : Except String String) : ExtractedDoc :=
  match input with
  | .ok text => extractFromText today todayCompact text
  | .error e => demoData e

/-! ## Receipt validation (`validate_receipt`, 125-204) -/

/-- The heterogeneous discrepancy dictionaries appended by the three checks
(the human-readable interpolated percentage of the amount message is elided;
the numeric `variance_percent` field is modelled exactly). -/
inductive Discrepancy where
  | vendorName (poValue receiptValue message : String)
  | totalAmount (poValue receiptValue variancePercent : ℚ) (message : String)
  | itemCount (poValue receiptValue : Nat) (message : String)
  deriving DecidableEq, Repr

/-- The receipt-side extraction dictionary built at lines 139-146. -/
structure ReceiptData where
  vendor_name : String
  items : List LineItem
  total_amount : ℚ
  currency : String
  receipt_date : String
  raw_text : String
  deriving DecidableEq, Repr

/-- Purchase-order data as consumed by `validate_receipt` and produced by
`generate_purchase_order_data` (85-123).  The static buyer block, terms
boilerplate and the date fields are kept as plain strings. -/
structure POData where
  po_number : String
  vendor_name : String
  vendor_email : String
  items : List LineItem
  subtotal : ℚ
  tax_amount : ℚ
  total_amount : ℚ
  currency : String
  terms : String
  delivery_date : String
  created_date : String
  status : String
  deriving DecidableEq, Repr

/-- The result dictionary of `validate_receipt` (the constant
`validation_details: {}` key is omitted). -/
structure ValidationResult where
  is_valid : Bool
  discrepancies : List Discrepancy
  receipt_data : ReceiptData
  deriving DecidableEq, Repr

/-- Receipt-side extraction (139-146). -/
def extractReceiptData (today : String) (text : String) : ReceiptData where
  vendor_name := extract_vendor_name text
  items := extract_line_items text
  total_amount := extract_total_amount text
  currency := extract_currency text
  receipt_date := extract_date today text
  raw_text := text

/-- The vendor-match check (156-167): case-insensitive; a discrepancy is
appended and `is_valid` cleared iff both lowered names are non-empty and
neither contains the other. -/
def vendorCheck (poVendor receiptVendor : String) (vr : ValidationResult) :
    ValidationResult :=
  let pv := pyLower poVendor
  let rv := pyLower receiptVendor
  if pv ≠ "" ∧ rv ≠ "" ∧ ¬pyIn pv rv ∧ ¬pyIn rv pv then
    { vr with
      is_valid := false
      discrepancies := vr.discrepancies ++
        [.vendorName poVendor receiptVendor
          "Vendor name mismatch between PO and receipt"] }
  else vr

/-- The amount-variance check (169-183): evaluated only when both totals are
strictly positive; flags iff `|po − receipt| / po > 0.05`. -/
def amountCheck (poTotal receiptTotal : ℚ) (vr : ValidationResult) :
    ValidationResult :=
  if 0 < poTotal ∧ 0 < receiptTotal then
    let variance := |poTotal - receiptTotal| / poTotal
    if 1 / 20 < variance then
      { vr with
        is_valid := false
        discrepancies := vr.discrepancies ++
          [.totalAmount poTotal receiptTotal (variance * 100)
            "Amount variance exceeds 5% threshold"] }
    else vr
  else vr

/-- The item-count check (185-195): informational only — appends a
discrepancy but does not clear `is_valid`. -/
def itemCountCheck (poItems receiptItems : List LineItem) (vr : ValidationResult) :
    ValidationResult :=
  if poItems.length ≠ receiptItems.length then
    { vr with
      discrepancies := vr.discrepancies ++
        [.itemCount poItems.length receiptItems.length
          "Number of items differs between PO and receipt"] }
  else vr

/-- `DocumentProcessor.validate_receipt` on extracted receipt text:
`is_valid` starts `true`, then vendor, amount and item-count checks run in
order. -/
def validate_receipt (today : String) (receiptText : String)
    (po : POData) : ValidationResult :=
  let rd := extractReceiptData today receiptText
  let vr0 : ValidationResult := ⟨true, [], rd⟩
  let vr1 := vendorCheck po.vendor_name rd.vendor_name vr0
  let vr2 := amountCheck po.total_amount rd.total_amount vr1
  itemCountCheck po.items rd.items vr2

/-! ## The approval state machine

`PurchaseRequestViewSet.approve` / `.reject` / `.submit_receipt`
(views.py 244-290, 319-344, 385-420) together with the serializer validation
steps (serializers.py 91-119) and `_auto_generate_po` (695-734).

One `PurchaseRequest` row and its `Approval` rows are modelled as one
`PRState`; users are identified by numbers; the caller's `profile.role` is an
explicit argument.  Each operation returns its HTTP-level outcome and the
database state after the request — a state possibly changed even by a failing
call, because a `return Response(...)` inside `transaction.atomic()` exits
the block without an exception and therefore commits. -/

/-- `PurchaseRequest.STATUS_CHOICES` (models.py 9-13). -/
inductive Status where
  | PENDING
  | APPROVED
  | REJECTED
  deriving DecidableEq, Repr

/-- `UserProfile.role` values consulted by the views. -/
inductive Role where
  | staff
  | approver1
  | approver2
  | finance
  deriving DecidableEq, Repr

/-- One `Approval` row (models.py 52-78). -/
structure ApprovalRec where
  level : Nat
  approver : Nat
  approved : Bool
  comment : String
  deriving DecidableEq, Repr

/-- Proforma-extraction data as stored on the request (`proforma_data`);
the keys read by `_auto_generate_po` / `generate_purchase_order_data`. -/
structure ProformaData where
  vendor_name : String
  vendor_email : String
  total_amount : ℚ
  currency : String
  items : List LineItem
  deriving DecidableEq, Repr

/-- The fields of a `PurchaseRequest` row (models.py 7-49) touched by the
modelled operations, plus its `Approval` rows. -/
structure PRState where
  status : Status
  created_by : Nat
  approved_by : Option Nat
  amount : ℚ
  title : String
  proforma_data : Option ProformaData
  purchase_order_data : Option POData
  receipt_validation_data : Option ValidationResult
  po_generated_at : Option Nat
  receipt : Option String
  approvals : List ApprovalRec
  deriving DecidableEq, Repr

/-- `generate_purchase_order_data` (document_processor.py 85-123); `now`
stands for the wall clock (PO number, created date) and `delivery` for
`now + 14 days`.  The source reads the proforma keys with `.get` defaults;
extraction always populates them, so `ProformaData` carries them directly. -/
def generate_purchase_order_data (pd : ProformaData) (now : Nat) : POData where
  po_number := "PO-" ++ toString now
  vendor_name := pd.vendor_name
  vendor_email := pd.vendor_email
  items := pd.items
  subtotal := pd.total_amount
  tax_amount := 0
  total_amount := pd.total_amount
  currency := pd.currency
  terms := "Payment Terms: Net 30 days\nDelivery: Standard shipping\nReturns: 30-day return policy\nWarranty: As per manufacturer specifications"
  delivery_date := toString (now + 14)
  created_date := toString now
  status := "ISSUED"

/-- `_auto_generate_po` (views.py 695-734): when the stored proforma data is
absent or its total amount is falsy, the request amount and placeholder
vendor/currency are substituted (707-710); then the generated PO data and
the generation time are stored on the request. -/
def autoGeneratePO (s : PRState) (now : Nat) : PRState :=
  let pd : ProformaData :=
    match s.proforma_data with
    | none => ⟨"TBD - Vendor", "", s.amount, "USD", []⟩
    | some pd =>
        if pd.total_amount = 0 then
          { pd with total_amount := s.amount, vendor_name := "TBD - Vendor", currency := "USD" }
        else pd
  { s with
    purchase_order_data := some (generate_purchase_order_data pd now)
    po_generated_at := some now }

/-- HTTP-level outcomes of the three workflow actions, named after the
specification's failure taxonomy (§7): `stateConflict` = the 400
"Cannot approve/reject non-pending request" (and the identical serializer
check), `duplicateReview` = the 400 "Request has already been reviewed at
this level", `orderingViolation` = the 400 "Level 1 approval required before
Level 2", `invalidStateNoPO` / `invalidStateNotApproved` = the submit-receipt
400s for a missing PO and a non-APPROVED status. -/
inductive Outcome where
  | forbidden
  | stateConflict
  | duplicateReview
  | orderingViolation
  | okPending
  | okApproved
  | okRejected
  | invalidStateNoPO
  | noReceiptFile
  | invalidStateNotApproved
  | okReceiptValid (vr : ValidationResult)
  | receiptMismatch (vr : ValidationResult)
  deriving DecidableEq, Repr

/-- `PurchaseRequestViewSet.approve` (views.py 244-290).

Order of steps, exactly as in the source: role check (248-249); the
`ApproveRequestSerializer` status validation (252-253 / serializers.py
94-98), which coincides with the in-lock re-check of line 259 in this
sequential model; the duplicate check per `(request, level)` (263-265); the
`Approval` row creation (267); then, for level 2 only, the level-1 ordering
check (270-276) — note it runs AFTER the row creation, and its early
`return` commits the transaction — and finally the status flip, final
approver and PO generation (278-289). -/
def approve (role : Role) (user : Nat) (comment : String) (now : Nat)
    (s : PRState) : Outcome × PRState :=
  if ¬(role = .approver1 ∨ role = .approver2) then (.forbidden, s)
  else if s.status ≠ .PENDING then (.stateConflict, s)
  else
    let level : Nat := if role = .approver1 then 1 else 2
    if s.approvals.any (fun a => a.level = level) then (.duplicateReview, s)
    else
      let s1 := { s with approvals := s.approvals ++ [⟨level, user, true, comment⟩] }
      if level = 2 then
        if ¬s1.approvals.any (fun a => a.level = 1 ∧ a.approved) then
          (.orderingViolation, s1)
        else
          let s2 := { s1 with status := .APPROVED, approved_by := some user }
          (.okApproved, autoGeneratePO s2 now)
      else (.okPending, s1)

/-- `PurchaseRequestViewSet.reject` (views.py 319-344): role check, status
check (serializer and in-lock), duplicate check, then an `Approval` row with
`approved=False` and the immediate flip to `REJECTED` at either level. -/
def reject (role : Role) (user : Nat) (comment : String) (s : PRState) :
    Outcome × PRState :=
  if ¬(role = .approver1 ∨ role = .approver2) then (.forbidden, s)
  else if s.status ≠ .PENDING then (.stateConflict, s)
  else
    let level : Nat := if role = .approver1 then 1 else 2
    if s.approvals.any (fun a => a.level = level) then (.duplicateReview, s)
    else
      (.okRejected,
        { s with
          approvals := s.approvals ++ [⟨level, user, false, comment⟩]
          status := .REJECTED })

/-- `PurchaseRequestViewSet.submit_receipt` (views.py 385-420).

Order of steps: owner check (389-390); `purchase_order_data` presence check
(392-393); receipt-file presence check (395-397); the
`ReceiptUploadSerializer` validation (399-400 / serializers.py 116-119),
which rejects any non-APPROVED request; then the serializer save of the
receipt, validation against the PO and the save of the validation result
(401-408) — the result is persisted even when validation finds mismatches
and a 400 is returned (410-415). -/
def submitReceipt (user : Nat) (receiptText : Option String) (today : String)
    (s : PRState) : Outcome × PRState :=
  if user ≠ s.created_by then (.forbidden, s)
  else
    match s.purchase_order_data with
    | none => (.invalidStateNoPO, s)
    | some po =>
        match receiptText with
        | none => (.noReceiptFile, s)
        | some text =>
            if s.status ≠ .APPROVED then (.invalidStateNotApproved, s)
            else
              let vr := validate_receipt today text po
              let s1 := { s with
                receipt := some text
                receipt_validation_data := some vr }
              if vr.is_valid then (.okReceiptValid vr, s1)
              else (.receiptMismatch vr, s1)

/-- A workflow call: the approve / reject operations of the claims'
transition-sequence statements. -/
inductive Op where
  | approveOp (role : Role) (user : Nat) (comment : String) (now : Nat)
  | rejectOp (role : Role) (user : Nat) (comment : String)
  deriving Repr

/-- Apply one workflow call, keeping only the state. -/
def stepOp (s : PRState) : Op → PRState
  | .approveOp role user comment now => (approve role user comment now s).2
  | .rejectOp role user comment => (reject role user comment s).2

/-- Run a sequence of approve / reject calls. -/
def runOps (ops : List Op) (s : PRState) : PRState :=
  ops.foldl stepOp s

/-! ## Shared concrete states for witnesses and counterexamples -/

/-- A freshly created request: `PENDING`, no approvals, no AI data
(views.py `perform_create` / models.py defaults). -/
def freshRequest : PRState where
  status := .PENDING
  created_by := 1
  approved_by := none
  amount := 1500
  title := "Test Equipment Purchase"
  proforma_data := none
  purchase_order_data := none
  receipt_validation_data := none
  po_generated_at := none
  receipt := none
  approvals := []

/-- A request already in a terminal state. -/
def approvedRequest : PRState := { freshRequest with status := .APPROVED }

/-! ## Claims about the approval state machine -/

/-- **C1** (code bug).  The claim states the invariant that a level-2
approved `Approval` exists only after a level-1 approved one, and that a
level-2 `approve` on a request without a recorded level-1 approval fails
with `OrderingViolation` *creating no level-2 record*.  The call does fail
with the ordering error, but the code creates the `Approval` row (views.py
267) BEFORE the level-1 check (270-276), and the failing path leaves the
block by `return Response(...)`, which commits the transaction — so the
approved level-2 row persists, violating the invariant and contradicting the
claimed step order.  This theorem evaluates the embedded operation at the
failing input: a `PENDING` request with no approvals, approved by a level-2
approver. -/
theorem c1_level2_without_level1_commits_orphan_record :
    approve .approver2 7 "" 0 freshRequest =
      (.orderingViolation, { freshRequest with approvals := [⟨2, 7, true, ""⟩] }) ∧
    (approve .approver2 7 "" 0 freshRequest).2.approvals.any
      (fun a => a.level = 2 ∧ a.approved) = true ∧
    (approve .approver2 7 "" 0 freshRequest).2.approvals.any
      (fun a => a.level = 1 ∧ a.approved) = false := by
  decide

/-- A failing `approve` on a non-`PENDING` request does not change the state. -/
theorem approve_nonpending {s : PRState} (h : s.status ≠ .PENDING)
    (role : Role) (user : Nat) (comment : String) (now : Nat) :
    (approve role user comment now s).2 = s := by
  simp only [approve, h, if_true, ite_true]
  split <;> rfl

/-- A failing `reject` on a non-`PENDING` request does not change the state. -/
theorem reject_nonpending {s : PRState} (h : s.status ≠ .PENDING)
    (role : Role) (user : Nat) (comment : String) :
    (reject role user comment s).2 = s := by
  simp only [reject, h, if_true, ite_true]
  split <;> rfl

/-- One `approve` step either keeps the status or moves `PENDING → APPROVED`. -/
theorem approve_status_cases (role : Role) (user : Nat) (comment : String)
    (now : Nat) (s : PRState) :
    (approve role user comment now s).2.status = s.status ∨
      (s.status = .PENDING ∧ (approve role user comment now s).2.status = .APPROVED) := by
  unfold approve
  dsimp only
  repeat' split
  all_goals simp_all [autoGeneratePO]

/-- One `reject` step either keeps the status or moves `PENDING → REJECTED`. -/
theorem reject_status_cases (role : Role) (user : Nat) (comment : String)
    (s : PRState) :
    (reject role user comment s).2.status = s.status ∨
      (s.status = .PENDING ∧ (reject role user comment s).2.status = .REJECTED) := by
  unfold reject
  dsimp only
  repeat' split
  all_goals simp_all

/-- **C2**.  Status transitions are one-way.  (i) On a non-`PENDING` request
both `approve` and `reject` leave the state untouched, and — for an
authorized approver — fail with the state conflict; (ii) any sequence of
approve / reject calls leaves a terminal request untouched; (iii) a single
`approve` either preserves the status or moves `PENDING → APPROVED`;
(iv) a single `reject` either preserves the status or moves
`PENDING → REJECTED`. -/
theorem c2_status_transitions_one_way (role : Role) (user : Nat)
    (comment : String) (now : Nat) (s : PRState) :
    (s.status ≠ .PENDING →
      (approve role user comment now s).2 = s ∧
      (reject role user comment s).2 = s ∧
      ((role = .approver1 ∨ role = .approver2) →
        (approve role user comment now s).1 = .stateConflict ∧
        (reject role user comment s).1 = .stateConflict)) ∧
    (s.status ≠ .PENDING → ∀ ops, runOps ops s = s) ∧
    ((approve role user comment now s).2.status = s.status ∨
      (s.status = .PENDING ∧ (approve role user comment now s).2.status = .APPROVED)) ∧
    ((reject role user comment s).2.status = s.status ∨
      (s.status = .PENDING ∧ (reject role user comment s).2.status = .REJECTED)) := by
  refine ⟨?_, ?_, approve_status_cases role user comment now s,
    reject_status_cases role user comment s⟩
  · intro h
    refine ⟨approve_nonpending h role user comment now,
      reject_nonpending h role user comment, ?_⟩
    intro hrole
    constructor <;> rcases hrole with rfl | rfl <;> simp [approve, reject, h]
  · intro h ops
    have hstep : ∀ op, stepOp s op = s := by
      intro op
      cases op with
      | approveOp role user comment now => exact approve_nonpending h role user comment now
      | rejectOp role user comment => exact reject_nonpending h role user comment
    induction ops with
    | nil => rfl
    | cons op ops ih =>
        unfold runOps at ih ⊢
        rw [List.foldl_cons, hstep op]
        exact ih

/-- Witness for C2 at a concrete terminal request. -/
theorem c2_status_transitions_one_way_witness :
    (approve .approver1 5 "again" 9 approvedRequest).2 = approvedRequest ∧
    (reject .approver2 5 "again" approvedRequest).2 = approvedRequest ∧
    (approve .approver1 5 "again" 9 approvedRequest).1 = .stateConflict ∧
    runOps [.approveOp .approver1 5 "a" 1, .rejectOp .approver2 6 "b"] approvedRequest =
      approvedRequest := by
  have h := c2_status_transitions_one_way .approver1 5 "again" 9 approvedRequest
  have h2 := c2_status_transitions_one_way .approver2 5 "again" 9 approvedRequest
  refine ⟨(h.1 (by decide)).1, (h2.1 (by decide)).2.1,
    ((h.1 (by decide)).2.2 (Or.inl rfl)).1, (h.2.1 (by decide)) _⟩

/-- **C3**.  `submit_receipt` is permitted only on an `APPROVED` request
that has stored PO data: for the request's owner with a receipt file
attached, if the status is not `APPROVED` or no PO data is stored, the call
fails with one of the two invalid-state errors (the missing-PO 400 of
views.py 392-393, or the `ReceiptUploadSerializer` rejection of non-APPROVED
requests, serializers.py 116-119) and the state is unchanged; when all
preconditions hold, the computed `ValidationResult` is persisted on the
request and the status is not changed. -/
theorem c3_submit_receipt_requires_approved_and_po (s : PRState) (user : Nat)
    (receipt : Option String) (today : String) :
    (user = s.created_by → receipt ≠ none →
      (s.status ≠ .APPROVED ∨ s.purchase_order_data = none) →
        (submitReceipt user receipt today s).2 = s ∧
        ((submitReceipt user receipt today s).1 = .invalidStateNoPO ∨
          (submitReceipt user receipt today s).1 = .invalidStateNotApproved)) ∧
    (∀ po text, user = s.created_by → s.status = .APPROVED →
      s.purchase_order_data = some po → receipt = some text →
        (submitReceipt user receipt today s).2 =
          { s with
            receipt := some text
            receipt_validation_data := some (validate_receipt today text po) } ∧
        (submitReceipt user receipt today s).2.status = s.status) := by
  constructor
  · intro hu hr hbad
    rcases hpo : s.purchase_order_data with _ | po
    · constructor <;> simp [submitReceipt, hu, hpo]
    · rcases receipt with _ | text
      · exact absurd rfl hr
      · rcases hbad with hbad | hbad
        · constructor <;> simp [submitReceipt, hu, hpo, hbad]
        · simp [hpo] at hbad
  · intro po text hu hst hpo hr
    subst hr
    rcases hval : (validate_receipt today text po).is_valid with _ | _ <;>
      constructor <;>
        simp [submitReceipt, hu, hpo, hst, hval]

/-- Witness for C3: a fresh request (PENDING, no PO) owned by user 1. -/
theorem c3_submit_receipt_requires_approved_and_po_witness :
    (submitReceipt 1 (some "receipt text") "2024-01-01" freshRequest).2 = freshRequest ∧
    ((submitReceipt 1 (some "receipt text") "2024-01-01" freshRequest).1 = .invalidStateNoPO ∨
      (submitReceipt 1 (some "receipt text") "2024-01-01" freshRequest).1 =
        .invalidStateNotApproved) :=
  (c3_submit_receipt_requires_approved_and_po freshRequest 1 (some "receipt text")
    "2024-01-01").1 (by decide) (by decide) (by decide)

/-- **C4**.  The nominal flow from a fresh `PENDING` request with no
approvals: level-1 approval succeeds and keeps the status `PENDING`; the
subsequent level-2 approval succeeds, sets `APPROVED` and records the final
approver; `reject` by either an approver1 or an approver2 (no ordering
requirement) immediately creates an `Approval` with `decision=false` and
sets `REJECTED`. -/
theorem c4_nominal_flow (s : PRState) (u1 u2 u3 : Nat) (c1 c2 c3 : String)
    (n1 n2 : Nat) (hp : s.status = .PENDING) (hnone : s.approvals = []) :
    (approve .approver1 u1 c1 n1 s).1 = .okPending ∧
    (approve .approver1 u1 c1 n1 s).2.status = .PENDING ∧
    (approve .approver2 u2 c2 n2 (approve .approver1 u1 c1 n1 s).2).1 = .okApproved ∧
    (approve .approver2 u2 c2 n2 (approve .approver1 u1 c1 n1 s).2).2.status = .APPROVED ∧
    (approve .approver2 u2 c2 n2 (approve .approver1 u1 c1 n1 s).2).2.approved_by =
      some u2 ∧
    (∀ role, (role = .approver1 ∨ role = .approver2) →
      (reject role u3 c3 s).1 = .okRejected ∧
      (reject role u3 c3 s).2.status = .REJECTED ∧
      (reject role u3 c3 s).2.approvals =
        [⟨if role = .approver1 then 1 else 2, u3, false, c3⟩]) := by
    refine ⟨?_, ?_, ?_, ?_, ?_, ?_⟩
    · simp [approve, hp, hnone]
    · simp [approve, hp, hnone]
    · simp [approve, hp, hnone, autoGeneratePO]
    · simp [approve, hp, hnone, autoGeneratePO]
    · simp [approve, hp, hnone, autoGeneratePO]
    · intro role hrole
      rcases hrole with rfl | rfl <;>
        refine ⟨?_, ?_, ?_⟩ <;> simp [reject, hp, hnone]

/-- Witness for C4 at the concrete fresh request. -/
theorem c4_nominal_flow_witness :
    (approve .approver1 4 "ok" 1 freshRequest).1 = .okPending ∧
    (approve .approver2 5 "ok" 2 (approve .approver1 4 "ok" 1 freshRequest).2).1 =
      .okApproved ∧
    (approve .approver2 5 "ok" 2 (approve .approver1 4 "ok" 1 freshRequest).2).2.status =
      .APPROVED ∧
    (reject .approver2 6 "no" freshRequest).2.status = .REJECTED := by
  have h := c4_nominal_flow freshRequest 4 5 6 "ok" "ok" "no" 1 2 (by decide) (by decide)
  exact ⟨h.1, h.2.2.1, h.2.2.2.1, (h.2.2.2.2.2 .approver2 (Or.inr rfl)).2.1⟩

/-- **C10** (frame property).  A successful level-1 approval on a `PENDING`
request with no recorded level-1 approval creates exactly one `Approval` row
(level 1, approved) and changes nothing else: the whole request row —
status, `approved_by`, `proforma_data`, `purchase_order_data`,
`receipt_validation_data`, `po_generated_at`, and every other field — is
untouched (the level-1 path of views.py 244-290 never saves the request). -/
theorem c10_level1_approve_frame (s : PRState) (u : Nat) (c : String) (now : Nat)
    (hp : s.status = .PENDING)
    (hno1 : s.approvals.any (fun a => a.level = 1) = false) :
    approve .approver1 u c now s =
      (.okPending, { s with approvals := s.approvals ++ [⟨1, u, true, c⟩] }) := by
  simp [approve, hp, hno1]

/-- Witness for C10 at the concrete fresh request. -/
theorem c10_level1_approve_frame_witness :
    approve .approver1 4 "lgtm" 3 freshRequest =
      (.okPending, { freshRequest with approvals := [⟨1, 4, true, "lgtm"⟩] }) := by
  have h := c10_level1_approve_frame freshRequest 4 "lgtm" 3 (by decide) (by decide)
  simpa [freshRequest] using h

/-! ## Substring lemmas relating the Python `in` test to list infixes -/

/-- `pyInL` decides list-infix containment. -/
theorem pyInL_iff {sub s : List Char} : pyInL sub s = true ↔ sub <:+: s := by
  unfold pyInL
  rw [List.any_eq_true]
  constructor
  · rintro ⟨t, ht, hp⟩
    exact List.infix_iff_prefix_suffix.mpr
      ⟨t, List.isPrefixOf_iff_prefix.mp hp, (List.mem_tails _ _).mp ht⟩
  · intro h
    obtain ⟨t, hp, hs⟩ := List.infix_iff_prefix_suffix.mp h
    exact ⟨t, (List.mem_tails _ _).mpr hs, List.isPrefixOf_iff_prefix.mpr hp⟩

/-- An infix of a mapped list is the image of an infix. -/
theorem infix_map_iff {f : Char → Char} {pat t : List Char} :
    pat <:+: t.map f ↔ ∃ m, m <:+: t ∧ m.map f = pat := by
  constructor
  · rintro ⟨s1, s2, heq⟩
    obtain ⟨a, bc, hab, ha, hbc⟩ := List.map_eq_append_iff.mp
      (by rw [← heq]; exact List.append_assoc s1 pat s2 : t.map f = s1 ++ (pat ++ s2))
    obtain ⟨b, c, hbc2, hb, hc⟩ := List.map_eq_append_iff.mp hbc
    exact ⟨b, ⟨a, c, by rw [hab, hbc2]; exact List.append_assoc a b c⟩, hb⟩
  · rintro ⟨m, ⟨s1, s2, hsplit⟩, rfl⟩
    exact ⟨s1.map f, s2.map f, by rw [← hsplit]; simp⟩

/-- `str.lower` preserves emptiness. -/
theorem pyLower_eq_empty_iff {s : String} : pyLower s = "" ↔ s = "" := by
  constructor
  · intro h
    have hd := congrArg String.data h
    simp [pyLower] at hd
    exact String.ext (by simpa using hd)
  · rintro rfl
    rfl

/-! ## Claims about the receipt validator -/

/-- A receipt-data value for stand-alone check instances. -/
def emptyReceiptData : ReceiptData := ⟨"", [], 0, "", "", ""⟩

/-- A fresh validation accumulator (`is_valid` starts `true`,
no discrepancies), as built at document_processor.py 149-154. -/
def freshVR : ValidationResult := ⟨true, [], emptyReceiptData⟩

/-- **C7**.  The vendor-match check is a symmetric case-insensitive substring
test: for non-empty vendor names it passes (leaves the accumulator untouched)
iff one lowercased name is a substring of the other, and otherwise appends
the vendor discrepancy and clears `is_valid`; an empty vendor name on either
side skips the check. -/
theorem c7_vendor_match_symmetric_substring (poVendor receiptVendor : String)
    (vr : ValidationResult) :
    (poVendor ≠ "" → receiptVendor ≠ "" →
      ((vendorCheck poVendor receiptVendor vr = vr ↔
          (pyLower poVendor).data <:+: (pyLower receiptVendor).data ∨
            (pyLower receiptVendor).data <:+: (pyLower poVendor).data) ∧
        (¬((pyLower poVendor).data <:+: (pyLower receiptVendor).data ∨
            (pyLower receiptVendor).data <:+: (pyLower poVendor).data) →
          vendorCheck poVendor receiptVendor vr =
            { vr with
              is_valid := false
              discrepancies := vr.discrepancies ++
                [.vendorName poVendor receiptVendor
                  "Vendor name mismatch between PO and receipt"] }))) ∧
    (poVendor = "" ∨ receiptVendor = "" → vendorCheck poVendor receiptVendor vr = vr) := by
  constructor
  · intro hpo hrv
    have hpo' : pyLower poVendor ≠ "" := fun h => hpo (pyLower_eq_empty_iff.mp h)
    have hrv' : pyLower receiptVendor ≠ "" := fun h => hrv (pyLower_eq_empty_iff.mp h)
    constructor
    · constructor
      · intro heq
        by_contra hni
        push_neg at hni
        obtain ⟨h1, h2⟩ := hni
        have hc : pyLower poVendor ≠ "" ∧ pyLower receiptVendor ≠ "" ∧
            ¬pyIn (pyLower poVendor) (pyLower receiptVendor) = true ∧
            ¬pyIn (pyLower receiptVendor) (pyLower poVendor) = true := by
          refine ⟨hpo', hrv', ?_, ?_⟩
          · rw [pyIn, pyInL_iff]; exact h1
          · rw [pyIn, pyInL_iff]; exact h2
        rw [vendorCheck] at heq
        simp only [if_pos hc] at heq
        have := congrArg (fun v => v.discrepancies.length) heq
        simp at this
      · intro hi
        rw [vendorCheck]
        rw [if_neg]
        rintro ⟨-, -, hn1, hn2⟩
        rcases hi with hi | hi
        · exact hn1 (by rw [pyIn, pyInL_iff]; exact hi)
        · exact hn2 (by rw [pyIn, pyInL_iff]; exact hi)
    · intro hni
      push_neg at hni
      rw [vendorCheck]
      rw [if_pos]
      refine ⟨hpo', hrv', ?_, ?_⟩
      · rw [pyIn, pyInL_iff]; exact hni.1
      · rw [pyIn, pyInL_iff]; exact hni.2
  · intro h
    rw [vendorCheck]
    rw [if_neg]
    rintro ⟨h1, h2, -, -⟩
    rcases h with rfl | rfl
    · exact h1 rfl
    · exact h2 rfl

/-- Witness for C7: the spec's instances.  PO vendor "ABC Supplies Ltd"
passes against receipt vendor "ABC Supplies" (one lowercased name is a
substring of the other) and fails against "XYZ Corp". -/
theorem c7_vendor_match_symmetric_substring_witness :
    vendorCheck "ABC Supplies Ltd" "ABC Supplies" freshVR = freshVR ∧
    vendorCheck "ABC Supplies Ltd" "XYZ Corp" freshVR =
      { freshVR with
        is_valid := false
        discrepancies :=
          [.vendorName "ABC Supplies Ltd" "XYZ Corp"
            "Vendor name mismatch between PO and receipt"] } := by
  have h1 := c7_vendor_match_symmetric_substring "ABC Supplies Ltd" "ABC Supplies" freshVR
  have h2 := c7_vendor_match_symmetric_substring "ABC Supplies Ltd" "XYZ Corp" freshVR
  constructor
  · exact ((h1.1 (by decide) (by decide)).1).mpr
      (Or.inr (by rw [← pyInL_iff]; decide))
  · have := (h2.1 (by decide) (by decide)).2
    simpa [freshVR] using this (by
      rintro (h | h) <;> rw [← pyInL_iff] at h <;> revert h <;> decide)

/-- **C6**.  The amount-variance check runs only when both totals are
strictly positive; with `variance = |po − receipt| / po`, it appends the
amount discrepancy (carrying `variance_percent = variance × 100`) and clears
`is_valid` exactly when `variance > 0.05`, and otherwise leaves the
accumulator untouched. -/
theorem c6_amount_variance_threshold (po rt : ℚ) (vr : ValidationResult) :
    ((po ≤ 0 ∨ rt ≤ 0) → amountCheck po rt vr = vr) ∧
    (0 < po → 0 < rt →
      (1 / 20 < |po - rt| / po →
        amountCheck po rt vr =
          { vr with
            is_valid := false
            discrepancies := vr.discrepancies ++
              [.totalAmount po rt ((|po - rt| / po) * 100)
                "Amount variance exceeds 5% threshold"] }) ∧
      (|po - rt| / po ≤ 1 / 20 → amountCheck po rt vr = vr)) := by
  refine ⟨?_, ?_⟩
  · intro h
    rw [amountCheck, if_neg]
    rintro ⟨h1, h2⟩
    rcases h with h | h <;> linarith
  · intro h1 h2
    constructor
    · intro hv
      rw [amountCheck, if_pos ⟨h1, h2⟩]
      simp only [if_pos hv]
    · intro hv
      rw [amountCheck, if_pos ⟨h1, h2⟩]
      simp only [if_neg (not_lt.mpr hv)]

/-- Witness for C6: the spec's instances — a 6% variance on a $1000 PO
(receipt $1060) is flagged with `variance_percent = 6`; a 4% variance
($1040) passes. -/
theorem c6_amount_variance_threshold_witness :
    amountCheck 1000 1060 freshVR =
      { freshVR with
        is_valid := false
        discrepancies :=
          [.totalAmount 1000 1060 6 "Amount variance exceeds 5% threshold"] } ∧
    amountCheck 1000 1040 freshVR = freshVR := by
  have h1 := (c6_amount_variance_threshold 1000 1060 freshVR).2
    (by norm_num) (by norm_num)
  have h2 := (c6_amount_variance_threshold 1000 1040 freshVR).2
    (by norm_num) (by norm_num)
  constructor
  · have h6 : (|(1000 : ℚ) - 1060| / 1000) * 100 = 6 := by
      rw [show |(1000 : ℚ) - 1060| = 60 by rw [abs_of_nonpos] <;> norm_num]
      norm_num
    have := h1.1 (by rw [show |(1000 : ℚ) - 1060| = 60 by rw [abs_of_nonpos] <;> norm_num]; norm_num)
    rw [h6] at this
    simpa [freshVR] using this
  · exact h2.2 (by rw [show |(1000 : ℚ) - 1040| = 40 by rw [abs_of_nonpos] <;> norm_num]; norm_num)

/-! ## Claims about currency and proforma extraction -/

/-- Spec-side reading of "`code` occurs as a case-insensitive substring of
the text": some segment of the text uppercases to the code. -/
def CIOccurs (code text : String) : Prop :=
  ∃ l m r, text.data = l ++ m ++ r ∧ m.map Char.toUpper = code.data

/-- The case-insensitive-occurrence predicate is what the source's
`currency in text.upper()` membership test decides. -/
theorem ciOccurs_iff {code text : String} :
    CIOccurs code text ↔ pyIn code (pyUpper text) = true := by
  unfold CIOccurs pyIn pyUpper
  rw [pyInL_iff]
  show _ ↔ code.data <:+: text.data.map Char.toUpper
  rw [infix_map_iff]
  constructor
  · rintro ⟨l, m, r, heq, hm⟩
    exact ⟨m, ⟨l, r, heq.symm⟩, hm⟩
  · rintro ⟨m, ⟨l, r, hsplit⟩, hm⟩
    exact ⟨l, m, r, hsplit.symm, hm⟩

/-- **C9** (counterexample).  The claim says a text containing a `€` glyph
but none of the five codes yields `EUR` regardless of any `$` glyph also
present.  The code checks `'$' in text` BEFORE `'€' in text`
(document_processor.py 353-356), so a text with both glyphs and no code
yields `USD`. -/
theorem c9_currency_counterexample :
    (∀ code ∈ ["USD", "EUR", "RWF", "KES", "UGX"], ¬CIOccurs code "€ 5 and $ 5") ∧
    pyInChar '€' "€ 5 and $ 5" = true ∧
    extract_currency "€ 5 and $ 5" = "USD" ∧ "USD" ≠ "EUR" := by
  refine ⟨?_, by decide, by decide, by decide⟩
  intro code hc hocc
  rw [ciOccurs_iff] at hocc
  fin_cases hc <;> revert hocc <;> decide

/-- **C9** (amended).  The extracted currency is the first code of
`USD, EUR, RWF, KES, UGX` (in that priority order) that occurs
case-insensitively in the text; if none occurs, `USD` is inferred from a
`$` glyph, else `EUR` from a `€` glyph, else the default is `USD` — i.e. the
`$`-glyph inference takes precedence over the `€`-glyph inference. -/
theorem c9_currency_priority_amended (text : String) :
    (CIOccurs "USD" text → extract_currency text = "USD") ∧
    (¬CIOccurs "USD" text → CIOccurs "EUR" text → extract_currency text = "EUR") ∧
    (¬CIOccurs "USD" text → ¬CIOccurs "EUR" text → CIOccurs "RWF" text →
      extract_currency text = "RWF") ∧
    (¬CIOccurs "USD" text → ¬CIOccurs "EUR" text → ¬CIOccurs "RWF" text →
      CIOccurs "KES" text → extract_currency text = "KES") ∧
    (¬CIOccurs "USD" text → ¬CIOccurs "EUR" text → ¬CIOccurs "RWF" text →
      ¬CIOccurs "KES" text → CIOccurs "UGX" text → extract_currency text = "UGX") ∧
    ((∀ code ∈ ["USD", "EUR", "RWF", "KES", "UGX"], ¬CIOccurs code text) →
      (pyInChar '$' text = true → extract_currency text = "USD") ∧
      (pyInChar '$' text = false → pyInChar '€' text = true →
        extract_currency text = "EUR") ∧
      (pyInChar '$' text = false → pyInChar '€' text = false →
        extract_currency text = "USD")) := by
  have conv : ∀ code : String, CIOccurs code text ↔ pyIn code (pyUpper text) = true :=
    fun code => ciOccurs_iff
  refine ⟨?_, ?_, ?_, ?_, ?_, ?_⟩
  · intro h
    rw [conv] at h
    simp [extract_currency, List.find?, h]
  · intro h1 h2
    rw [conv] at h1 h2
    simp only [Bool.not_eq_true] at h1
    simp [extract_currency, List.find?, h1, h2]
  · intro h1 h2 h3
    rw [conv] at h1 h2 h3
    simp only [Bool.not_eq_true] at h1 h2
    simp [extract_currency, List.find?, h1, h2, h3]
  · intro h1 h2 h3 h4
    rw [conv] at h1 h2 h3 h4
    simp only [Bool.not_eq_true] at h1 h2 h3
    simp [extract_currency, List.find?, h1, h2, h3, h4]
  · intro h1 h2 h3 h4 h5
    rw [conv] at h1 h2 h3 h4 h5
    simp only [Bool.not_eq_true] at h1 h2 h3 h4
    simp [extract_currency, List.find?, h1, h2, h3, h4, h5]
  · intro hnone
    have h1 := hnone "USD" (by simp)
    have h2 := hnone "EUR" (by simp)
    have h3 := hnone "RWF" (by simp)
    have h4 := hnone "KES" (by simp)
    have h5 := hnone "UGX" (by simp)
    rw [conv] at h1 h2 h3 h4 h5
    simp only [Bool.not_eq_true] at h1 h2 h3 h4 h5
    refine ⟨?_, ?_, ?_⟩
    · intro hd
      simp [extract_currency, List.find?, h1, h2, h3, h4, h5, hd]
    · intro hd he
      simp [extract_currency, List.find?, h1, h2, h3, h4, h5, hd, he]
    · intro hd he
      simp [extract_currency, List.find?, h1, h2, h3, h4, h5, hd, he]

/-- Witness for the amended C9: "paid 100 eur" contains `EUR`
case-insensitively and no `USD`, so the extracted currency is `EUR`; and for
a code-free text the `$`-before-`€` fallback yields `USD`. -/
theorem c9_currency_priority_amended_witness :
    extract_currency "paid 100 eur" = "EUR" ∧
    extract_currency "€ 1 $ 1" = "USD" := by
  constructor
  · exact (c9_currency_priority_amended "paid 100 eur").2.1
      (fun h => by rw [ciOccurs_iff] at h; revert h; decide)
      (ciOccurs_iff.mpr (by decide))
  · exact (((c9_currency_priority_amended "€ 1 $ 1").2.2.2.2.2
      (fun code hc => fun h => by
        rw [ciOccurs_iff] at h
        fin_cases hc <;> revert h <;> decide)).1) (by decide)

/-- **C8**.  Field extraction is total and falls back instead of raising:
the embedding of `extract_proforma_data` returns a document for every input;
for empty or letter-and-digit-free garbage text the vendor name defaults to
`"Unknown Vendor"` and the total amount to `0.00`; and on any internal
failure (the `except` branch) the result is the fixed placeholder document
with the failure reason folded into the raw-text field. -/
theorem c8_extraction_total_with_fallback (today todayCompact e : String) :
    (extract_proforma_data today todayCompact (.ok "")).vendor_name = "Unknown Vendor" ∧
    (extract_proforma_data today todayCompact (.ok "")).total_amount = 0 ∧
    (extract_proforma_data today todayCompact
      (.ok "???? !!!! ####")).vendor_name = "Unknown Vendor" ∧
    (extract_proforma_data today todayCompact (.ok "???? !!!! ####")).total_amount = 0 ∧
    extract_proforma_data today todayCompact (.error e) = demoData e ∧
    (demoData e).raw_text = "Demo processing (error: " ++ e ++ ")" ∧
    (demoData e).vendor_name = "Demo Vendor Ltd" ∧ (demoData e).demo_mode = true := by
  refine ⟨?_, ?_, ?_, ?_, rfl, rfl, rfl, rfl⟩
  · show extract_vendor_name "" = "Unknown Vendor"
    decide
  · show extract_total_amount "" = 0
    decide
  · show extract_vendor_name "???? !!!! ####" = "Unknown Vendor"
    decide
  · show extract_total_amount "???? !!!! ####" = 0
    decide

/-! ## C5: the total-amount extraction against its positional specification

Spec side: "collect every numeric amount matched by the three patterns, take
the maximum, default 0.00".  The spec-level candidate set is read
positionally — a candidate is a match of the pattern at *any* position of the
text — while the source's `re.findall` skips positions inside earlier
matches.  The theorems below close that gap: for patterns (a) and (b) no
match can begin strictly inside another match, and for pattern (c) any match
beginning inside another yields a smaller amount, so the maxima coincide. -/

/-- All captures of a pattern at every position of the text (the positional
reading of "every numeric amount matched"). -/
def posCands (m : List Char → Option (List Char × List Char))
    (cs : List Char) : List (List Char) :=
  cs.tails.filterMap (fun t => (m t).map Prod.fst)

/-- Maximum of a list of amounts, `0.00` when empty (all extracted amounts
are nonnegative, so the default never masks a candidate). -/
def listMax (l : List ℚ) : ℚ := l.foldr max 0

theorem listMax_nonneg (l : List ℚ) : 0 ≤ listMax l := by
  induction l with
  | nil => simp [listMax]
  | cons a t ih => simp only [listMax, List.foldr_cons]; exact le_max_of_le_right ih

theorem le_listMax_of_mem {a : ℚ} {l : List ℚ} (h : a ∈ l) : a ≤ listMax l := by
  induction l with
  | nil => simp at h
  | cons b t ih =>
      rcases List.mem_cons.mp h with rfl | h
      · exact le_max_left _ _
      · exact le_trans (ih h) (le_max_right _ _)

theorem listMax_cons (a : ℚ) (l : List ℚ) : listMax (a :: l) = max a (listMax l) := rfl

theorem listMax_append (x y : List ℚ) :
    listMax (x ++ y) = max (listMax x) (listMax y) := by
  induction x with
  | nil =>
      simp only [List.nil_append, listMax, List.foldr_nil]
      exact (max_eq_right (listMax_nonneg y)).symm
  | cons a t ih =>
      simp only [List.cons_append, listMax_cons, ih, max_assoc]

theorem listMax_le {l : List ℚ} {b : ℚ} (h0 : 0 ≤ b) (h : ∀ a ∈ l, a ≤ b) :
    listMax l ≤ b := by
  induction l with
  | nil => simpa [listMax]
  | cons a t ih =>
      rw [listMax_cons]
      exact max_le (h a (by simp)) (ih (fun a ha => h a (List.mem_cons_of_mem _ ha)))

theorem listMax_le_listMax {l l' : List ℚ}
    (h : ∀ a ∈ l, ∃ b ∈ l', a ≤ b) : listMax l ≤ listMax l' := by
  refine listMax_le (listMax_nonneg l') ?_
  intro a ha
  obtain ⟨b, hb, hab⟩ := h a ha
  exact le_trans hab (le_listMax_of_mem hb)

/-- Every amount parsed by `pyAmount` is nonnegative. -/
theorem pyAmount_nonneg {cs : List Char} {v : ℚ} (h : pyAmount cs = some v) :
    0 ≤ v := by
  unfold pyAmount parsePyDecimal at h
  dsimp only at h
  split at h
  · split at h
    · rw [Option.some_inj] at h
      subst h
      positivity
    · exact absurd h (by simp)
  · split at h
    · rw [Option.some_inj] at h
      subst h
      positivity
    · exact absurd h (by simp)
  · exact absurd h (by simp)

/-- Folding `max` from a nonnegative seed computes the seed-or-max. -/
theorem foldl_max_listMax (t : List ℚ) : ∀ a : ℚ, 0 ≤ a →
    t.foldl max a = max a (listMax t) := by
  induction t with
  | nil =>
      intro a ha
      simp only [List.foldl_nil, listMax, List.foldr_nil]
      exact (max_eq_left ha).symm
  | cons b t ih =>
      intro a ha
      rw [List.foldl_cons, listMax_cons, ih (max a b) (le_max_of_le_left ha),
        max_assoc]

/-- `max(amounts) if amounts else 0` agrees with `listMax` because all
amounts are nonnegative. -/
theorem extract_total_amount_eq_listMax (text : String) :
    extract_total_amount text =
      listMax ((scan1 text.data ++ scan2 text.data ++ scan3 text.data).filterMap
        pyAmount) := by
  unfold extract_total_amount
  dsimp only
  rcases hl : (scan1 text.data ++ scan2 text.data ++ scan3 text.data).filterMap
      pyAmount with _ | ⟨a, t⟩
  · simp only [hl]
    rfl
  · simp only [hl]
    have ha : 0 ≤ a := by
      have : a ∈ (scan1 text.data ++ scan2 text.data ++ scan3 text.data).filterMap
          pyAmount := by rw [hl]; simp
      obtain ⟨cs, -, hcs⟩ := List.mem_filterMap.mp this
      exact pyAmount_nonneg hcs
    rw [foldl_max_listMax t a ha, listMax_cons]

/-! ### Generic findall-vs-positional lemmas -/

theorem posCands_nil (m : List Char → Option (List Char × List Char)) :
    posCands m [] = ((m []).map Prod.fst).toList := by
  unfold posCands
  rcases hm0 : m [] with _ | p <;> simp [List.filterMap, hm0]

theorem posCands_cons (m : List Char → Option (List Char × List Char))
    (c : Char) (t : List Char) :
    posCands m (c :: t) = ((m (c :: t)).map Prod.fst).toList ++ posCands m t := by
  unfold posCands
  rw [List.tails_cons, List.filterMap_cons]
  rcases m (c :: t) with _ | p <;> simp

/-- If no position strictly between a suffix `rest` and the whole of `u`
matches, the positional candidates of `u` are those of `rest`. -/
theorem posCands_eq_of_none {m : List Char → Option (List Char × List Char)}
    {u rest : List Char} (hsuf : rest <:+ u)
    (hnone : ∀ w, w <:+ u → rest.length < w.length → m w = none) :
    posCands m u = posCands m rest := by
  induction u with
  | nil =>
      obtain rfl := List.suffix_nil.mp hsuf
      rfl
  | cons c t ih =>
      by_cases hlen : rest.length = (c :: t).length
      · obtain rfl := List.IsSuffix.eq_of_length hsuf hlen
        rfl
      · have hlt : rest.length < (c :: t).length :=
          lt_of_le_of_ne (List.IsSuffix.length_le hsuf) hlen
        rw [posCands_cons, hnone _ (List.suffix_refl _) hlt]
        simp only [Option.map_none', Option.toList_none, List.nil_append]
        have hsuf' : rest <:+ t := by
          rcases List.suffix_cons_iff.mp hsuf with rfl | h
          · exact absurd rfl hlen
          · exact h
        exact ih hsuf' (fun w hw hlw =>
          hnone w (hw.trans (List.suffix_cons c t)) hlw)

/-- Candidates at positions of a suffix are candidates of the whole. -/
theorem posCands_suffix_subset {m : List Char → Option (List Char × List Char)}
    {u rest : List Char} (hsuf : rest <:+ u) {a : List Char}
    (ha : a ∈ posCands m rest) : a ∈ posCands m u := by
  unfold posCands at ha ⊢
  obtain ⟨w, hw, hwa⟩ := List.mem_filterMap.mp ha
  exact List.mem_filterMap.mpr
    ⟨w, (List.mem_tails _ _).mpr (((List.mem_tails _ _).mp hw).trans hsuf), hwa⟩

/-- `re.findall` sees exactly the positional candidates when no match can
begin strictly inside another match. -/
theorem findall_eq_posCands {m : List Char → Option (List Char × List Char)}
    (hm : Shrinking m)
    (hrest : ∀ cs cap rest, m cs = some (cap, rest) → rest <:+ cs)
    (hint : ∀ cs cap rest, m cs = some (cap, rest) →
      ∀ w, w <:+ cs → rest.length < w.length → w.length < cs.length → m w = none) :
    ∀ cs, findall m cs = posCands m cs := by
  have H : ∀ n (cs : List Char), cs.length = n → findall m cs = posCands m cs := by
    intro n
    induction n using Nat.strong_induction_on with
    | _ n ih =>
        intro cs hn
        subst hn
        rw [findall_eq hm]
        rcases hmc : m cs with _ | ⟨cap, rest⟩
        · cases cs with
          | nil => rw [posCands_nil, hmc]; rfl
          | cons c t =>
              rw [posCands_cons, hmc]
              simp only [Option.map_none', Option.toList_none, List.nil_append]
              exact ih t.length (by simp) t rfl
        · have hlt : rest.length < cs.length := hm _ _ _ hmc
          rcases hcs : cs with _ | ⟨c, t⟩
          · subst hcs; simp at hlt
          subst hcs
          rw [posCands_cons, hmc]
          have hsuf' : rest <:+ t := by
            rcases List.suffix_cons_iff.mp (hrest _ _ _ hmc) with heq | h
            · rw [heq] at hlt; simp at hlt
            · exact h
          have hmid : posCands m t = posCands m rest := by
            refine posCands_eq_of_none hsuf' ?_
            intro w hw hlw
            exact hint _ _ _ hmc w (hw.trans (List.suffix_cons c t)) hlw
              (lt_of_le_of_lt (List.IsSuffix.length_le hw) (by simp))
          rw [hmid]
          simp only [Option.map_some', Option.toList_some]
          rw [ih rest.length hlt rest rfl]
          rfl
  exact fun cs => H cs.length cs rfl

/-- Upper bound on the positional maximum above a suffix, when every strictly
interior candidate amount is bounded by `V`. -/
theorem posCands_listMax_le {m : List Char → Option (List Char × List Char)}
    {u rest : List Char} {V : ℚ} (h0 : 0 ≤ V) (hsuf : rest <:+ u)
    (hbound : ∀ w, w <:+ u → rest.length < w.length →
      ∀ cap' rest', m w = some (cap', rest') →
        ∀ v', pyAmount cap' = some v' → v' ≤ V) :
    listMax ((posCands m u).filterMap pyAmount) ≤
      max V (listMax ((posCands m rest).filterMap pyAmount)) := by
  induction u with
  | nil =>
      obtain rfl := List.suffix_nil.mp hsuf
      exact le_max_of_le_right (le_refl _)
  | cons c t ih =>
      by_cases hlen : rest.length = (c :: t).length
      · obtain rfl := List.IsSuffix.eq_of_length hsuf hlen
        exact le_max_of_le_right (le_refl _)
      · have hlt : rest.length < (c :: t).length :=
          lt_of_le_of_ne (List.IsSuffix.length_le hsuf) hlen
        have hsuf' : rest <:+ t := by
          rcases List.suffix_cons_iff.mp hsuf with rfl | h
          · exact absurd rfl hlen
          · exact h
        rw [posCands_cons, List.filterMap_append, listMax_append]
        have hhead : listMax ((((m (c :: t)).map Prod.fst).toList).filterMap pyAmount) ≤ V := by
          rcases hmc : m (c :: t) with _ | ⟨cap', rest'⟩
          · simpa [listMax] using h0
          · simp only [Option.map_some', Option.toList_some]
            rcases hv : pyAmount cap' with _ | v'
            · simpa [List.filterMap, hv, listMax] using h0
            · have := hbound (c :: t) (List.suffix_refl _) hlt cap' rest' hmc v' hv
              simpa [List.filterMap, hv, listMax] using ⟨this, h0⟩
        have htail := ih hsuf' (fun w hw hlw =>
          hbound w (hw.trans (List.suffix_cons c t)) hlw)
        exact max_le (le_max_of_le_left hhead) htail

/-- `re.findall` computes the positional maximum when every match beginning
strictly inside another match yields a smaller (or unparseable) amount. -/
theorem findall_listMax_eq_posCands
    {m : List Char → Option (List Char × List Char)} (hm : Shrinking m)
    (hrest : ∀ cs cap rest, m cs = some (cap, rest) → rest <:+ cs)
    (hdom : ∀ cs cap rest, m cs = some (cap, rest) →
      ∀ w, w <:+ cs → rest.length < w.length → w.length < cs.length →
        ∀ cap' rest', m w = some (cap', rest') →
          ∀ v', pyAmount cap' = some v' → ∃ v, pyAmount cap = some v ∧ v' ≤ v) :
    ∀ cs, listMax ((findall m cs).filterMap pyAmount) =
      listMax ((posCands m cs).filterMap pyAmount) := by
  have H : ∀ n (cs : List Char), cs.length = n →
      listMax ((findall m cs).filterMap pyAmount) =
        listMax ((posCands m cs).filterMap pyAmount) := by
    intro n
    induction n using Nat.strong_induction_on with
    | _ n ih =>
        intro cs hn
        subst hn
        rw [findall_eq hm]
        rcases hmc : m cs with _ | ⟨cap, rest⟩
        · cases cs with
          | nil => rw [posCands_nil, hmc]; rfl
          | cons c t =>
              rw [posCands_cons, hmc]
              simp only [Option.map_none', Option.toList_none, List.nil_append]
              exact ih t.length (by simp) t rfl
        · have hlt : rest.length < cs.length := hm _ _ _ hmc
          rcases hcs : cs with _ | ⟨c, t⟩
          · subst hcs; simp at hlt
          subst hcs
          rw [posCands_cons, hmc]
          simp only [Option.map_some', Option.toList_some]
          rw [List.singleton_append]
          have hsuf' : rest <:+ t := by
            rcases List.suffix_cons_iff.mp (hrest _ _ _ hmc) with heq | h
            · rw [heq] at hlt; simp at hlt
            · exact h
          set A : ℚ := listMax (([cap].filterMap) pyAmount) with hA
          have hA0 : 0 ≤ A := by
            rw [hA]
            rcases hv : pyAmount cap with _ | v
            · simp [List.filterMap, hv, listMax]
            · simp [List.filterMap, hv, listMax]
          have hsplit : ∀ l : List (List Char),
              listMax ((cap :: l).filterMap pyAmount) =
                max A (listMax (l.filterMap pyAmount)) := by
            intro l
            rw [show cap :: l = [cap] ++ l from rfl, List.filterMap_append,
              listMax_append, hA]
          have hboundA : ∀ w, w <:+ t → rest.length < w.length →
              ∀ cap' rest', m w = some (cap', rest') →
                ∀ v', pyAmount cap' = some v' → v' ≤ A := by
            intro w hw hlw cap' rest' hmw v' hv'
            obtain ⟨v, hv, hle⟩ := hdom _ _ _ hmc w (hw.trans (List.suffix_cons c t))
              hlw (lt_of_le_of_lt (List.IsSuffix.length_le hw) (by simp))
              cap' rest' hmw v' hv'
            have hAv : A = max v 0 := by rw [hA]; simp [List.filterMap, hv, listMax]
            rw [hAv]
            exact le_max_of_le_left hle
          have hup := posCands_listMax_le hA0 hsuf' hboundA
          have hmono : listMax ((posCands m rest).filterMap pyAmount) ≤
              listMax ((posCands m t).filterMap pyAmount) := by
            refine listMax_le_listMax ?_
            intro a ha
            obtain ⟨x, hx, hxa⟩ := List.mem_filterMap.mp ha
            exact ⟨a, List.mem_filterMap.mpr
              ⟨x, posCands_suffix_subset hsuf' hx, hxa⟩, le_refl _⟩
          rw [hsplit (findall m rest), hsplit (posCands m t),
            ih rest.length hlt rest rfl]
          exact le_antisymm
            (max_le (le_max_left _ _) (le_trans hmono (le_max_right _ _)))
            (max_le (le_max_left _ _) (le_trans hup
              (max_le (le_max_left _ _) (le_max_right _ _))))
  exact fun cs => H cs.length cs rfl

/-! ### Utilities for the per-pattern interior analyses -/

/-- A suffix of `a ++ b` at least as long as `b` splits as a suffix of `a`
followed by `b`. -/
theorem suffix_append_split {w a b : List Char} (h : w <:+ a ++ b)
    (hlen : b.length ≤ w.length) : ∃ x, x <:+ a ∧ w = x ++ b := by
  obtain ⟨pre, hpre⟩ := h
  have hL := congrArg List.length hpre
  simp only [List.length_append] at hL
  refine ⟨a.drop pre.length, List.drop_suffix _ _, ?_⟩
  have hw : w = (a ++ b).drop pre.length := by
    rw [← hpre, List.drop_left]
  rw [hw, List.drop_append_eq_append_drop, Nat.sub_eq_zero_of_le (by omega),
    List.drop_zero]

/-- What a successful case-insensitive strip means: the consumed prefix
lowercases to the pattern. -/
theorem ciStrip_iff {pat cs r : List Char} :
    ciStrip pat cs = some r ↔ ∃ pre, cs = pre ++ r ∧ pre.map Char.toLower = pat := by
  induction pat generalizing cs with
  | nil =>
      simp only [ciStrip, Option.some_inj]
      constructor
      · rintro rfl
        exact ⟨[], rfl, rfl⟩
      · rintro ⟨pre, rfl, hm⟩
        rw [List.map_eq_nil_iff] at hm
        rw [hm, List.nil_append]
  | cons p ps ih =>
      cases cs with
      | nil =>
          simp only [ciStrip]
          constructor
          · intro h
            exact absurd h (by simp)
          · rintro ⟨pre, heq, hm⟩
            rw [List.nil_eq, List.append_eq_nil] at heq
            rw [heq.1] at hm
            simp at hm
      | cons c t =>
          simp only [ciStrip]
          split
          · rename_i hc
            rw [ih]
            constructor
            · rintro ⟨pre, rfl, hm⟩
              exact ⟨c :: pre, rfl, by simp [hm, hc]⟩
            · rintro ⟨pre, heq, hm⟩
              cases pre with
              | nil => simp at hm
              | cons x xs =>
                  rw [List.cons_append, List.cons.injEq] at heq
                  rw [List.map_cons, List.cons.injEq] at hm
                  exact ⟨xs, heq.2, hm.2⟩
          · rename_i hc
            constructor
            · intro h
              exact absurd h (by simp)
            · rintro ⟨pre, heq, hm⟩
              cases pre with
              | nil => simp at hm
              | cons x xs =>
                  rw [List.cons_append, List.cons.injEq] at heq
                  rw [List.map_cons, List.cons.injEq] at hm
                  rw [← heq.1] at hm
                  exact absurd hm.1 hc

/-- Lowercasing a decimal digit leaves it a digit (and in particular not a
letter). -/
theorem toLower_of_isDigit {c : Char} (h : c.isDigit = true) : c.toLower = c := by
  unfold Char.isDigit at h
  simp only [Bool.and_eq_true, decide_eq_true_eq] at h
  have h1 : 48 ≤ c.val.toNat := h.1
  have h2 : c.val.toNat ≤ 57 := h.2
  unfold Char.toLower
  dsimp only
  rw [if_neg]
  rintro ⟨g1, g2⟩
  have hv : c.toNat = c.val.toNat := rfl
  omega

/-! ### Pattern (b): no `$`-match begins inside another `$`-match -/

/-- The rest returned by `match2At` is a suffix of the input. -/
theorem match2At_rest_suffix :
    ∀ cs cap rest, match2At cs = some (cap, rest) → rest <:+ cs := by
  intro cs cap rest h
  unfold match2At at h
  split at h
  · rename_i t
    obtain ⟨happ, -⟩ := parseNum_append h
    exact (show rest <:+ t from ⟨cap, happ⟩).trans (List.suffix_cons '$' t)
  · exact absurd h (by simp)

/-- `match2At` needs a leading dollar sign. -/
theorem match2At_ne_dollar {x : Char} {t : List Char} (hx : x ≠ '$') :
    match2At (x :: t) = none := by
  unfold match2At
  split
  · rename_i t' heq
    rw [List.cons.injEq] at heq
    exact absurd heq.1 hx
  · rfl

/-- Characters of a number capture are never `$`. -/
theorem parseNum_chars_ne_dollar {b : Bool} {cs cap rest : List Char}
    (h : parseNum b cs = some (cap, rest)) : ∀ x ∈ cap, x ≠ '$' := by
  intro x hx
  rcases parseNum_chars h x hx with hd | rfl | rfl
  · rintro rfl
    exact absurd hd (by decide)
  · decide
  · decide

/-- No pattern-(b) match begins strictly inside another: the interior
characters are the capture's digits, commas and dots, never `$`. -/
theorem match2At_interior_none :
    ∀ cs cap rest, match2At cs = some (cap, rest) →
      ∀ w, w <:+ cs → rest.length < w.length → w.length < cs.length →
        match2At w = none := by
  intro cs cap rest h w hw hlw hwc
  rcases hcs : cs with _ | ⟨c, t⟩
  · subst hcs; simp at hwc
  subst hcs
  have hc : c = '$' := by
    unfold match2At at h
    split at h
    · rename_i t' heq
      exact (List.cons.injEq .. |>.mp heq).1
    · exact absurd h (by simp)
  subst hc
  have hpn : parseNum false t = some (cap, rest) := by
    unfold match2At at h
    exact h
  obtain ⟨happ, hne⟩ := parseNum_append hpn
  have hw' : w <:+ t := by
    rcases List.suffix_cons_iff.mp hw with heq | h'
    · rw [heq] at hwc; simp at hwc
    · exact h'
  rw [← happ] at hw'
  obtain ⟨x, hxsuf, rfl⟩ := suffix_append_split hw' (by omega)
  rcases hxe : x with _ | ⟨y, x'⟩
  · subst hxe; simp at hlw
  subst hxe
  rw [List.cons_append]
  refine match2At_ne_dollar (parseNum_chars_ne_dollar hpn y ?_)
  exact List.IsSuffix.subset hxsuf (by simp)

/-! ### Pattern (a): no label-match begins inside another label-match -/

/-- A suffix no longer than the right part of an append is a suffix of it. -/
theorem suffix_short {w a b : List Char} (h : w <:+ a ++ b)
    (hlen : w.length ≤ b.length) : w <:+ b := by
  obtain ⟨q, hq⟩ := h
  have hL := congrArg List.length hq
  simp only [List.length_append] at hL
  have hw : w = (a ++ b).drop q.length := by rw [← hq, List.drop_left]
  rw [hw, List.drop_append_eq_append_drop, List.drop_eq_nil_of_le (by omega),
    List.nil_append]
  exact List.drop_suffix _ _

/-- A suffix is the drop at the length difference. -/
theorem suffix_eq_drop {s L : List Char} (h : s <:+ L) :
    s = L.drop (L.length - s.length) := by
  obtain ⟨pre, hpre⟩ := h
  have hn : (pre ++ s).length - s.length = pre.length := by
    simp [List.length_append]
  rw [← hpre, hn, List.drop_append_eq_append_drop,
    List.drop_eq_nil_of_le (le_refl _), List.nil_append, Nat.sub_self,
    List.drop_zero]

/-- The three label words of pattern (a), lowercased. -/
def amtLabels : List (List Char) :=
  [['t', 'o', 't', 'a', 'l'], ['a', 'm', 'o', 'u', 'n', 't'], ['s', 'u', 'm']]

/-- A successful `ciStrip` of a nonempty pattern fixes the lowercase of the
head character. -/
theorem ciStrip_head {p c : Char} {ps t r : List Char}
    (h : ciStrip (p :: ps) (c :: t) = some r) : c.toLower = p := by
  by_cases hc : c.toLower = p
  · exact hc
  · simp only [ciStrip, if_neg hc] at h
    exact absurd h (by simp)

/-- `labelAt1` succeeds exactly through one of the three label words. -/
theorem labelAt1_cases {cs r : List Char} (h : labelAt1 cs = some r) :
    ∃ L ∈ amtLabels, ciStrip L cs = some r := by
  unfold labelAt1 at h
  split at h
  · rename_i r1 h1
    exact ⟨['t', 'o', 't', 'a', 'l'], by decide, h1.trans h⟩
  · rename_i h1
    split at h
    · rename_i r2 h2
      exact ⟨['a', 'm', 'o', 'u', 'n', 't'], by decide, h2.trans h⟩
    · rename_i h2
      exact ⟨['s', 'u', 'm'], by decide, h⟩

/-- A position where `labelAt1` succeeds starts with `t`, `a` or `s`
(case-insensitively). -/
theorem labelAt1_head {c : Char} {t r : List Char}
    (h : labelAt1 (c :: t) = some r) :
    c.toLower = 't' ∨ c.toLower = 'a' ∨ c.toLower = 's' := by
  obtain ⟨L, hL, hstrip⟩ := labelAt1_cases h
  simp only [amtLabels, List.mem_cons, List.not_mem_nil, or_false] at hL
  rcases hL with rfl | rfl | rfl
  · exact Or.inl (ciStrip_head hstrip)
  · exact Or.inr (Or.inl (ciStrip_head hstrip))
  · exact Or.inr (Or.inr (ciStrip_head hstrip))

/-- Unfolding of a successful pattern-(a) match. -/
theorem match1At_label {cs cap rest : List Char}
    (h : match1At cs = some (cap, rest)) :
    ∃ r, labelAt1 cs = some (':' :: r) ∧
      parseNum false (stripDollar (r.dropWhile pySpace)) = some (cap, rest) := by
  unfold match1At at h
  split at h
  · rename_i r hlab
    exact ⟨r, hlab, h⟩
  · exact absurd h (by simp)

theorem match1At_none_of_label {cs : List Char} (h : labelAt1 cs = none) :
    match1At cs = none := by
  unfold match1At
  rw [h]

theorem stripDollar_of_ne {x : Char} {t : List Char} (hx : x ≠ '$') :
    stripDollar (x :: t) = x :: t := by
  rw [stripDollar.eq_def]
  split
  · rename_i t2 heq
    injection heq with h1 h2
    exact absurd h1 hx
  · rfl

/-- None of the characters that can occur after the label of a pattern-(a)
match lowercases to a label head letter. -/
theorem toLower_ne_label_of_class {c : Char}
    (h : pySpace c = true ∨ c = ':' ∨ c = '$' ∨ c.isDigit = true ∨
      c = ',' ∨ c = '.') :
    ¬(c.toLower = 't' ∨ c.toLower = 'a' ∨ c.toLower = 's') := by
  rcases h with h | h | h | h | h | h
  · unfold pySpace at h
    simp only [Bool.or_eq_true, decide_eq_true_eq] at h
    rcases h with ((((h | h) | h) | h) | h) | h <;> subst h <;> decide
  · subst h; decide
  · subst h; decide
  · intro hc
    have hlow := toLower_of_isDigit h
    rcases hc with hc | hc | hc <;>
      (rw [hlow] at hc; subst hc; exact absurd h (by decide))
  · subst h; decide
  · subst h; decide

/-- No label word, nor a label word followed by `:`, occurs as a prefix at a
position strictly inside a label word. -/
theorem labelTable : ∀ L ∈ amtLabels, ∀ k, k < L.length → 1 ≤ k →
    ∀ pat ∈ amtLabels,
      ¬ pat <+: L.drop k ∧ ¬ (L.drop k ++ [':']) <+: pat := by
  decide

/-- No label word matches at a position strictly inside a label occurrence
followed by a colon. -/
theorem ciStrip_tail_none {L W2 pat : List Char} (hL : L ∈ amtLabels)
    (hpat : pat ∈ amtLabels) {k : Nat} (hk1 : 1 ≤ k) (hk2 : k < L.length)
    (hW : W2.map Char.toLower = L.drop k) (z r : List Char) :
    ciStrip pat (W2 ++ ':' :: z) ≠ some r := by
  intro h
  obtain ⟨pre, hpre, hm⟩ := ciStrip_iff.mp h
  by_cases hlen : pre.length ≤ W2.length
  · have h1 : pre = (W2 ++ ':' :: z).take pre.length := by
      rw [hpre]
      exact (List.take_left pre r).symm
    have htake : pre = W2.take pre.length := by
      conv_lhs => rw [h1]
      rw [List.take_append_eq_append_take, Nat.sub_eq_zero_of_le hlen,
        List.take_zero, List.append_nil]
    have hpf : pat <+: L.drop k := by
      rw [← hm, htake, List.map_take, hW]
      exact List.take_prefix _ _
    exact (labelTable L hL k hk2 hk1 pat hpat).1 hpf
  · push_neg at hlen
    have h1 : (W2 ++ ':' :: z).take (W2.length + 1) = W2 ++ [':'] := by
      rw [List.take_append_eq_append_take, List.take_of_length_le (by omega)]
      have h2 : W2.length + 1 - W2.length = 1 := by omega
      rw [h2]
      rfl
    have h3 : (pre ++ r).take (W2.length + 1) = pre.take (W2.length + 1) := by
      rw [List.take_append_eq_append_take, Nat.sub_eq_zero_of_le (by omega),
        List.take_zero, List.append_nil]
    have h2 : pre.take (W2.length + 1) = W2 ++ [':'] := by
      rw [← h3, ← hpre, h1]
    have h4 : (pre.map Char.toLower).take (W2.length + 1) = L.drop k ++ [':'] := by
      rw [← List.map_take, h2, List.map_append, hW]
      have hcolon : ([':'] : List Char).map Char.toLower = [':'] := by decide
      rw [hcolon]
    have hpf : (L.drop k ++ [':']) <+: pat := by
      rw [← hm, ← h4]
      exact List.take_prefix _ _
    exact (labelTable L hL k hk2 hk1 pat hpat).2 hpf

/-- `labelAt1` fails at every position strictly inside a label occurrence. -/
theorem labelAt1_tail_none {L W2 : List Char} (hL : L ∈ amtLabels) {k : Nat}
    (hk1 : 1 ≤ k) (hk2 : k < L.length) (hW : W2.map Char.toLower = L.drop k)
    (z : List Char) : labelAt1 (W2 ++ ':' :: z) = none := by
  rcases hlab : labelAt1 (W2 ++ ':' :: z) with _ | r
  · rfl
  · exfalso
    obtain ⟨pat, hpat, hstrip⟩ := labelAt1_cases hlab
    exact ciStrip_tail_none hL hpat hk1 hk2 hW z r hstrip

/-- Decomposition of a successful pattern-(a) match: label word, colon,
whitespace, optional dollar sign, capture, rest. -/
theorem match1At_decomp {cs cap rest : List Char}
    (h : match1At cs = some (cap, rest)) :
    ∃ W SP D, cs = W ++ ':' :: (SP ++ (D ++ (cap ++ rest))) ∧
      W.map Char.toLower ∈ amtLabels ∧
      (∀ x ∈ SP, pySpace x = true) ∧ (D = ['$'] ∨ D = []) ∧
      parseNum false (cap ++ rest) = some (cap, rest) := by
  obtain ⟨r, hlab, hpn⟩ := match1At_label h
  obtain ⟨L, hL, hstrip⟩ := labelAt1_cases hlab
  obtain ⟨W, hcs, hWm⟩ := ciStrip_iff.mp hstrip
  have hWL : W.map Char.toLower ∈ amtLabels := hWm ▸ hL
  have hr : r.takeWhile pySpace ++ r.dropWhile pySpace = r :=
    List.takeWhile_append_dropWhile pySpace r
  have hSP : ∀ x ∈ r.takeWhile pySpace, pySpace x = true := fun x hx =>
    List.mem_takeWhile_imp hx
  rcases hXc : r.dropWhile pySpace with _ | ⟨x0, X2⟩
  · rw [hXc] at hpn
    have hnone : parseNum false (stripDollar ([] : List Char)) = none := rfl
    rw [hnone] at hpn
    exact absurd hpn (by simp)
  · by_cases hx0 : x0 = '$'
    · subst hx0
      rw [hXc] at hpn
      have hsd : stripDollar ('$' :: X2) = X2 := rfl
      rw [hsd] at hpn
      obtain ⟨happ, hne⟩ := parseNum_append hpn
      have hreq : r = r.takeWhile pySpace ++ (['$'] ++ (cap ++ rest)) := by
        conv_lhs => rw [← hr, hXc]
        rw [happ]
        rfl
      refine ⟨W, r.takeWhile pySpace, ['$'],
        hcs.trans (congrArg (fun t => W ++ ':' :: t) hreq), hWL, hSP,
        Or.inl rfl, ?_⟩
      rw [happ]
      exact hpn
    · rw [hXc] at hpn
      rw [stripDollar_of_ne hx0] at hpn
      obtain ⟨happ, hne⟩ := parseNum_append hpn
      have hreq : r = r.takeWhile pySpace ++ ([] ++ (cap ++ rest)) := by
        conv_lhs => rw [← hr, hXc]
        rw [List.nil_append, happ]
      refine ⟨W, r.takeWhile pySpace, [],
        hcs.trans (congrArg (fun t => W ++ ':' :: t) hreq), hWL, hSP,
        Or.inr rfl, ?_⟩
      rw [happ]
      exact hpn

/-- The rest of a pattern-(a) match is a suffix of the input. -/
theorem match1At_rest_suffix : ∀ cs cap rest, match1At cs = some (cap, rest) →
    rest <:+ cs := by
  intro cs cap rest h
  obtain ⟨W, SP, D, hcs, -, -, -, -⟩ := match1At_decomp h
  exact ⟨W ++ ':' :: (SP ++ D ++ cap), by rw [hcs]; simp [List.append_assoc]⟩

/-- Pattern (a) cannot match at a position strictly inside another
pattern-(a) match. -/
theorem match1At_interior_none : ∀ cs cap rest, match1At cs = some (cap, rest) →
    ∀ w, w <:+ cs → rest.length < w.length → w.length < cs.length →
      match1At w = none := by
  intro cs cap rest h w hsuf hlt1 hlt2
  obtain ⟨W, SP, D, hcs, hWm, hSP, hD, hpn⟩ := match1At_decomp h
  subst hcs
  have hshape : W ++ ':' :: (SP ++ (D ++ (cap ++ rest))) =
      (W ++ ':' :: (SP ++ (D ++ cap))) ++ rest := by
    simp [List.append_assoc]
  rw [hshape] at hsuf hlt2
  obtain ⟨p, hpW, hw⟩ := suffix_append_split hsuf (le_of_lt hlt1)
  have hwlen := congrArg List.length hw
  by_cases hlen : p.length ≤ (':' :: (SP ++ (D ++ cap))).length
  · rcases hm : match1At w with _ | ⟨q1, q2⟩
    · rfl
    · exfalso
      obtain ⟨r2, hlab2, -⟩ := match1At_label hm
      have hp2 : p <:+ ':' :: (SP ++ (D ++ cap)) := suffix_short hpW hlen
      rcases hp : p with _ | ⟨c, p2⟩
      · subst hp
        rw [List.nil_append] at hw
        rw [hw] at hlt1
        exact absurd hlt1 (lt_irrefl _)
      · subst hp
        have hmem : c ∈ ':' :: (SP ++ (D ++ cap)) :=
          hp2.subset (List.mem_cons_self c p2)
        have hclass : pySpace c = true ∨ c = ':' ∨ c = '$' ∨
            c.isDigit = true ∨ c = ',' ∨ c = '.' := by
          rcases List.mem_cons.mp hmem with rfl | hmem2
          · exact Or.inr (Or.inl rfl)
          · rcases List.mem_append.mp hmem2 with hc1 | hc2
            · exact Or.inl (hSP c hc1)
            · rcases List.mem_append.mp hc2 with hc3 | hc4
              · rcases hD with rfl | rfl
                · rw [List.mem_singleton] at hc3
                  exact Or.inr (Or.inr (Or.inl hc3))
                · exact absurd hc3 (List.not_mem_nil c)
              · rcases parseNum_chars hpn c hc4 with hd | hd | hd
                · exact Or.inr (Or.inr (Or.inr (Or.inl hd)))
                · exact Or.inr (Or.inr (Or.inr (Or.inr (Or.inl hd))))
                · exact Or.inr (Or.inr (Or.inr (Or.inr (Or.inr hd))))
        have hw2 : w = c :: (p2 ++ rest) := by
          rw [hw]
          rfl
        rw [hw2] at hlab2
        exact toLower_ne_label_of_class hclass (labelAt1_head hlab2)
  · push_neg at hlen
    obtain ⟨W2, hW2suf, hpeq⟩ := suffix_append_split hpW (le_of_lt hlen)
    have hplen := congrArg List.length hpeq
    simp only [List.length_append, List.length_cons] at hplen hlen hlt2 hwlen
    have hmapsuf : W2.map Char.toLower <:+ W.map Char.toLower :=
      hW2suf.map Char.toLower
    have hdropeq := suffix_eq_drop hmapsuf
    have hk1 : 1 ≤ (W.map Char.toLower).length - (W2.map Char.toLower).length := by
      simp only [List.length_map]
      omega
    have hk2 : (W.map Char.toLower).length - (W2.map Char.toLower).length <
        (W.map Char.toLower).length := by
      simp only [List.length_map]
      omega
    have hnone := labelAt1_tail_none hWm hk1 hk2 hdropeq
      ((SP ++ (D ++ cap)) ++ rest)
    have hw3 : w = W2 ++ ':' :: ((SP ++ (D ++ cap)) ++ rest) := by
      rw [hw, hpeq]
      simp [List.append_assoc]
    rw [hw3]
    exact match1At_none_of_label hnone

/-! ### Pattern (c): structure of the numeric core and domination -/

/-- Recogniser for outputs of `commaGroups`: a (possibly empty) sequence of
comma-plus-three-digit groups. -/
def isGroupList : List Char → Bool
  | [] => true
  | ',' :: a :: b :: c :: rest =>
      a.isDigit && b.isDigit && c.isDigit && isGroupList rest
  | _ => false

theorem isGroupList_head {gs : List Char} (hg : isGroupList gs = true) :
    gs = [] ∨ ∃ t, gs = ',' :: t := by
  rcases gs with _ | ⟨c, t⟩
  · exact Or.inl rfl
  · right
    rw [isGroupList.eq_def] at hg
    split at hg
    · rename_i heq
      exact absurd heq (by simp)
    · rename_i a b d rest heq
      rw [heq]
      exact ⟨_, rfl⟩
    · exact absurd hg (by simp)

theorem groupList_chars {gs : List Char} (hg : isGroupList gs = true) :
    ∀ x ∈ gs, x = ',' ∨ x.isDigit = true := by
  induction gs using isGroupList.induct with
  | case1 => intro x hx; exact absurd hx (List.not_mem_nil x)
  | case2 a b c rest ih =>
      simp only [isGroupList, Bool.and_eq_true] at hg
      intro x hx
      rcases List.mem_cons.mp hx with rfl | hx1
      · exact Or.inl rfl
      · rcases List.mem_cons.mp hx1 with rfl | hx2
        · exact Or.inr hg.1.1.1
        · rcases List.mem_cons.mp hx2 with rfl | hx3
          · exact Or.inr hg.1.1.2
          · rcases List.mem_cons.mp hx3 with rfl | hx4
            · exact Or.inr hg.1.2
            · exact ih hg.2 x hx4
  | case3 cs h1 h2 =>
      rw [isGroupList.eq_def] at hg
      split at hg
      · rename_i heq
        exact absurd rfl h1
      · rename_i a b d rest
        exact absurd rfl (h2 a b d rest)
      · exact absurd hg (by simp)

theorem commaGroups_isGroupList (cs : List Char) :
    isGroupList (commaGroups cs).1 = true := by
  induction cs using commaGroups.induct with
  | case1 a b c rest h ih =>
      simp only [commaGroups, h, if_true]
      simp only [isGroupList, Bool.and_eq_true] at ih ⊢
      simp only [Bool.and_eq_true] at h
      exact ⟨⟨⟨h.1.1, h.1.2⟩, h.2⟩, ih⟩
  | case2 a b c rest h => simp [commaGroups, h, isGroupList]
  | case3 cs h =>
      rw [commaGroups.eq_def]
      split
      · rename_i a b c rest
        exact absurd rfl (h a b c rest)
      · rfl

theorem commaGroups_notcomma {t : List Char}
    (ht : ∀ c t2, t = c :: t2 → c ≠ ',') : commaGroups t = ([], t) := by
  rw [commaGroups.eq_def]
  split
  · rename_i a b c rest
    exact absurd rfl (ht ',' (a :: b :: c :: rest) rfl)
  · rfl

theorem commaGroups_groupList {gs z : List Char} (hg : isGroupList gs = true) :
    commaGroups (gs ++ '.' :: z) = (gs, '.' :: z) := by
  induction gs using isGroupList.induct with
  | case1 =>
      rw [List.nil_append]
      exact commaGroups_notcomma (fun c t2 h => by
        injection h with h1 h2
        rw [← h1]
        decide)
  | case2 a b c rest ih =>
      simp only [isGroupList, Bool.and_eq_true] at hg
      have hcond : (a.isDigit && b.isDigit && c.isDigit) = true := by
        simp [hg.1.1.1, hg.1.1.2, hg.1.2]
      simp only [List.cons_append, commaGroups, hcond, if_true, List.append_eq,
        ih hg.2]
  | case3 cs h1 h2 =>
      rw [isGroupList.eq_def] at hg
      split at hg
      · rename_i heq
        exact absurd rfl h1
      · rename_i a b d rest
        exact absurd rfl (h2 a b d rest)
      · exact absurd hg (by simp)

/-- `takeWhile`/`dropWhile` on an append whose left part satisfies the
predicate and whose right part starts with a failing character. -/
theorem takeWhile_append_stop {p : Char → Bool} {l t : List Char}
    (hl : ∀ x ∈ l, p x = true) (ht : ∀ c t2, t = c :: t2 → p c = false) :
    (l ++ t).takeWhile p = l ∧ (l ++ t).dropWhile p = t := by
  induction l with
  | nil =>
      simp only [List.nil_append]
      cases t with
      | nil => exact ⟨rfl, rfl⟩
      | cons c t2 =>
          simp [List.takeWhile_cons, List.dropWhile_cons, ht c t2 rfl]
  | cons x l ih =>
      have hx := hl x (List.mem_cons_self x l)
      obtain ⟨ih1, ih2⟩ := ih (fun y hy => hl y (List.mem_cons_of_mem x hy))
      simp only [List.cons_append, List.takeWhile_cons, List.dropWhile_cons, hx,
        if_true, ih1, ih2]
      constructor <;> trivial

theorem parseNum_none_of_not_digit {b : Bool} {c : Char} {t : List Char}
    (hc : c.isDigit = false) : parseNum b (c :: t) = none := by
  unfold parseNum
  simp [List.takeWhile_cons, hc]

theorem digit_ne_comma {c : Char} (h : c.isDigit = true) : c ≠ ',' := by
  intro hc
  rw [hc] at h
  exact absurd h (by decide)

theorem digit_ne_dot {c : Char} (h : c.isDigit = true) : c ≠ '.' := by
  intro hc
  rw [hc] at h
  exact absurd h (by decide)

/-- `foldl` form of `digitsToNat` from an arbitrary accumulator. -/
theorem digitsToNat_general (a : Nat) (l : List Char) :
    l.foldl (fun a c => 10 * a + (c.toNat - '0'.toNat)) a =
      a * 10 ^ l.length + digitsToNat l := by
  induction l generalizing a with
  | nil => simp [digitsToNat]
  | cons c t ih =>
      have h2 : digitsToNat (c :: t) =
          t.foldl (fun a c => 10 * a + (c.toNat - '0'.toNat))
            (10 * 0 + (c.toNat - '0'.toNat)) := rfl
      simp only [List.foldl_cons, List.length_cons, h2, ih]
      ring

/-- The value of a digit-string suffix is at most the value of the whole. -/
theorem digitsToNat_suffix {l1 l2 : List Char} (h : l1 <:+ l2) :
    digitsToNat l1 ≤ digitsToNat l2 := by
  obtain ⟨pre, rfl⟩ := h
  unfold digitsToNat
  conv_rhs => rw [List.foldl_append, digitsToNat_general]
  exact Nat.le_add_left _ _

theorem suffix_filter {p : Char → Bool} {l1 l2 : List Char} (h : l1 <:+ l2) :
    l1.filter p <:+ l2.filter p := by
  obtain ⟨pre, rfl⟩ := h
  exact ⟨pre.filter p, by rw [← List.filter_append]⟩

/-- Value of `Decimal` on a digit string with a two-digit fraction. -/
theorem parsePyDecimal_intfrac {I : List Char} {a b : Char} (hne : I ≠ [])
    (hId : ∀ x ∈ I, x.isDigit = true) (ha : a.isDigit = true)
    (hb : b.isDigit = true) :
    parsePyDecimal (I ++ ['.', a, b]) =
      some ((digitsToNat I : ℚ) + (digitsToNat [a, b] : ℚ) / 100) := by
  have hstop : (I ++ ['.', a, b]).takeWhile (fun c => c ≠ '.') = I ∧
      (I ++ ['.', a, b]).dropWhile (fun c => c ≠ '.') = ['.', a, b] :=
    takeWhile_append_stop
      (fun x hx => by simp [digit_ne_dot (hId x hx)])
      (fun c t2 h => by
        injection h with h1 h2
        rw [← h1]
        simp)
  unfold parsePyDecimal
  simp only [hstop.1, hstop.2]
  have hcond : I ≠ [] ∧ ([a, b] : List Char) ≠ [] ∧
      I.all Char.isDigit = true ∧ ([a, b] : List Char).all Char.isDigit = true := by
    refine ⟨hne, by simp, ?_, ?_⟩
    · rw [List.all_eq_true]
      exact hId
    · simp [ha, hb]
  rw [if_pos hcond]
  norm_num

/-- Value of `pyAmount` on a capture of the numeric core. -/
theorem pyAmount_capture {ds2 gs2 : List Char} {a b : Char} (hne : ds2 ≠ [])
    (hds : ∀ x ∈ ds2, x.isDigit = true)
    (hgs : ∀ x ∈ gs2, x = ',' ∨ x.isDigit = true)
    (ha : a.isDigit = true) (hb : b.isDigit = true) :
    pyAmount (ds2 ++ gs2 ++ ['.', a, b]) =
      some ((digitsToNat ((ds2 ++ gs2).filter (fun c => c ≠ ',')) : ℚ) +
        (digitsToNat [a, b] : ℚ) / 100) := by
  unfold pyAmount
  have hdot : ('.' : Char) ≠ ',' := by decide
  have hf3 : (['.', a, b] : List Char).filter (fun c => c ≠ ',') =
      ['.', a, b] := by
    simp [List.filter_cons, hdot, digit_ne_comma ha, digit_ne_comma hb]
  have hind : ∀ x ∈ (ds2 ++ gs2).filter (fun c => c ≠ ','),
      x.isDigit = true := by
    intro x hx
    have hx2 := List.mem_filter.mp hx
    rcases List.mem_append.mp hx2.1 with h1 | h1
    · exact hds x h1
    · rcases hgs x h1 with rfl | h2
      · exact absurd hx2.2 (by simp)
      · exact h2
  have hne2 : (ds2 ++ gs2).filter (fun c => c ≠ ',') ≠ [] := by
    rw [List.filter_append]
    have hds2 : ds2.filter (fun c => c ≠ ',') = ds2 :=
      List.filter_eq_self.mpr (fun x hx => by simp [digit_ne_comma (hds x hx)])
    rw [hds2]
    intro hcontra
    rw [List.append_eq_nil] at hcontra
    exact hne hcontra.1
  rw [List.filter_append, hf3]
  exact parsePyDecimal_intfrac hne2 hind ha hb

/-- Evaluation of the strict numeric core on its canonical decomposition. -/
theorem parseNum_true_eval {ds2 gs2 t : List Char} {a b : Char} (hne : ds2 ≠ [])
    (hds : ∀ x ∈ ds2, x.isDigit = true) (hgs : isGroupList gs2 = true)
    (ha : a.isDigit = true) (hb : b.isDigit = true) :
    parseNum true (ds2 ++ (gs2 ++ '.' :: a :: b :: t)) =
      some (ds2 ++ gs2 ++ ['.', a, b], t) := by
  have hhead : ∀ c t2, gs2 ++ '.' :: a :: b :: t = c :: t2 →
      c.isDigit = false := by
    intro c t2 h
    rcases isGroupList_head hgs with rfl | ⟨gt, rfl⟩
    · rw [List.nil_append] at h
      injection h with h1 h2
      rw [← h1]
      decide
    · rw [List.cons_append] at h
      injection h with h1 h2
      rw [← h1]
      decide
  obtain ⟨htw, hdw⟩ := takeWhile_append_stop hds hhead
  have hem : ds2.isEmpty = false := by
    cases ds2
    · exact absurd rfl hne
    · rfl
  have hcg : commaGroups (gs2 ++ '.' :: a :: b :: t) =
      (gs2, '.' :: a :: b :: t) := commaGroups_groupList hgs
  unfold parseNum
  simp only [htw, hdw, hem, Bool.false_eq_true, if_false, hcg, ha, hb,
    Bool.and_self, if_true]

/-- The strict numeric core fails when the digits are followed by neither a
comma group nor a two-decimal fraction. -/
theorem parseNum_true_stop {ds t : List Char} (hne : ds ≠ [])
    (hds : ∀ x ∈ ds, x.isDigit = true)
    (ht : t = [] ∨ ∃ c t2, t = c :: t2 ∧ c.isDigit = false ∧ c ≠ ',' ∧ c ≠ '.') :
    parseNum true (ds ++ t) = none := by
  have hhead : ∀ c t2, t = c :: t2 → c.isDigit = false := by
    intro c t2 h
    rcases ht with rfl | ⟨c2, t3, heq, h1, h2, h3⟩
    · exact absurd h (by simp)
    · rw [heq] at h
      injection h with h4 h5
      rw [← h4]
      exact h1
  obtain ⟨htw, hdw⟩ := takeWhile_append_stop hds hhead
  have hem : ds.isEmpty = false := by
    cases ds
    · exact absurd rfl hne
    · rfl
  have hcg : commaGroups t = ([], t) := commaGroups_notcomma (by
    intro c t2 h
    rcases ht with rfl | ⟨c2, t3, heq, h1, h2, h3⟩
    · exact absurd h (by simp)
    · rw [heq] at h
      injection h with h4 h5
      rw [← h4]
      exact h2)
  unfold parseNum
  simp only [htw, hdw, hem, Bool.false_eq_true, if_false, hcg]
  split
  · rename_i x y r
    exfalso
    rcases ht with habs | ⟨c2, t3, heq2, h1, h2, h3⟩
    · simp at habs
    · injection heq2 with h4 h5
      exact h3 h4.symm
  · rfl

/-- Decomposition of a successful strict numeric-core parse. -/
theorem parseNum_true_decomp {cs cap rest0 : List Char}
    (h : parseNum true cs = some (cap, rest0)) :
    ∃ ds gs a b, cap = ds ++ gs ++ ['.', a, b] ∧ cs = cap ++ rest0 ∧
      ds ≠ [] ∧ (∀ x ∈ ds, x.isDigit = true) ∧ isGroupList gs = true ∧
      (∀ x ∈ gs, x = ',' ∨ x.isDigit = true) ∧
      a.isDigit = true ∧ b.isDigit = true := by
  have happ := (parseNum_append h).1
  unfold parseNum at h
  by_cases hem : (cs.takeWhile Char.isDigit).isEmpty
  · simp [hem] at h
  · simp only [hem, Bool.false_eq_true, if_false] at h
    split at h
    · rename_i x y r heq
      split at h
      · rename_i hxy
        rw [Option.some_inj, Prod.mk.injEq] at h
        obtain ⟨h1, h2⟩ := h
        simp only [Bool.and_eq_true] at hxy
        refine ⟨cs.takeWhile Char.isDigit,
          (commaGroups (cs.dropWhile Char.isDigit)).1, x, y, h1.symm,
          happ.symm, ?_, fun x hx => List.mem_takeWhile_imp hx,
          commaGroups_isGroupList _, fun x hx => commaGroups_chars hx,
          hxy.1, hxy.2⟩
        intro hnil
        rw [hnil] at hem
        exact hem rfl
      · exact absurd h (by simp)
    · exact absurd h (by simp)

/-- Decomposition of a successful `(?:\s*USD|$)` anchor. -/
theorem usdOrEnd_decomp {rest0 r : List Char} (h : usdOrEnd rest0 = some r) :
    (rest0 = [] ∧ r = []) ∨ (rest0 = ['\n'] ∧ r = rest0) ∨
      ∃ SP U, rest0 = SP ++ (U ++ r) ∧ (∀ x ∈ SP, pySpace x = true) ∧
        U.map Char.toLower = ['u', 's', 'd'] := by
  unfold usdOrEnd at h
  split at h
  · rename_i r2 hm
    rw [Option.some_inj] at h
    subst h
    obtain ⟨U, hU, hUm⟩ := ciStrip_iff.mp hm
    right; right
    refine ⟨rest0.takeWhile pySpace, U, ?_,
      fun x hx => List.mem_takeWhile_imp hx, hUm⟩
    conv_lhs => rw [← List.takeWhile_append_dropWhile pySpace rest0]
    rw [hU]
  · rename_i hm
    split at h
    · rename_i hcond
      rw [Option.some_inj] at h
      rcases hcond with h0 | h0
      · refine Or.inl ⟨h0, ?_⟩
        rw [← h]
        exact h0
      · exact Or.inr (Or.inl ⟨h0, h.symm⟩)
    · exact absurd h (by simp)

theorem usdOrEnd_suffix {rest0 r : List Char} (h : usdOrEnd rest0 = some r) :
    r <:+ rest0 := by
  rcases usdOrEnd_decomp h with ⟨h0, h1⟩ | ⟨h0, h1⟩ | ⟨SP, U, h0, -, -⟩
  · subst h0
    subst h1
    exact List.suffix_rfl
  · rw [h1]
  · rw [h0]
    exact ⟨SP ++ U, by rw [List.append_assoc]⟩

theorem not_digit_comma_dot_of_lower {c x : Char}
    (hx : x = 'u' ∨ x = 's' ∨ x = 'd') (h : c.toLower = x) :
    c.isDigit = false ∧ c ≠ ',' ∧ c ≠ '.' := by
  refine ⟨?_, ?_, ?_⟩
  · cases hcd : c.isDigit
    · rfl
    · exfalso
      rw [toLower_of_isDigit hcd] at h
      subst h
      rcases hx with rfl | rfl | rfl <;> exact absurd hcd (by decide)
  · intro hc
    subst hc
    rcases hx with rfl | rfl | rfl <;> exact absurd h (by decide)
  · intro hc
    subst hc
    rcases hx with rfl | rfl | rfl <;> exact absurd h (by decide)

theorem not_digit_of_pySpace {c : Char} (h : pySpace c = true) :
    c.isDigit = false ∧ c ≠ ',' ∧ c ≠ '.' := by
  unfold pySpace at h
  simp only [Bool.or_eq_true, decide_eq_true_eq] at h
  rcases h with ((((h | h) | h) | h) | h) | h <;> subst h <;>
    exact ⟨by decide, by decide, by decide⟩

/-- What follows a successful anchor never starts with a digit, comma or
dot. -/
theorem rest0_head_class {rest0 r : List Char} (h : usdOrEnd rest0 = some r) :
    rest0 = [] ∨ ∃ c t2, rest0 = c :: t2 ∧ c.isDigit = false ∧
      c ≠ ',' ∧ c ≠ '.' := by
  rcases usdOrEnd_decomp h with ⟨h0, -⟩ | ⟨h0, -⟩ | ⟨SP, U, h0, hSP, hUm⟩
  · exact Or.inl h0
  · right
    refine ⟨'\n', [], h0, by decide, by decide, by decide⟩
  · right
    rcases hSPc : SP with _ | ⟨c, SP2⟩
    · rcases hUc : U with _ | ⟨c, U2⟩
      · rw [hUc] at hUm
        simp at hUm
      · rw [hUc, List.map_cons] at hUm
        rw [List.cons.injEq] at hUm
        have hcls := not_digit_comma_dot_of_lower (Or.inl rfl) hUm.1
        refine ⟨c, U2 ++ r, ?_, hcls.1, hcls.2.1, hcls.2.2⟩
        rw [h0, hSPc, hUc]
        rfl
    · have hcls := not_digit_of_pySpace (hSP c (by
        rw [hSPc]
        exact List.mem_cons_self c SP2))
      refine ⟨c, SP2 ++ (U ++ r), ?_, hcls.1, hcls.2.1, hcls.2.2⟩
      rw [h0, hSPc]
      rfl

theorem match3At_cases {cs cap rest : List Char}
    (h : match3At cs = some (cap, rest)) :
    ∃ rest0, parseNum true cs = some (cap, rest0) ∧
      usdOrEnd rest0 = some rest := by
  unfold match3At at h
  split at h
  · rename_i cap2 rest0 hpn
    simp only [Option.map_eq_some'] at h
    obtain ⟨r, hr, heq⟩ := h
    rw [Prod.mk.injEq] at heq
    obtain ⟨h1, h2⟩ := heq
    subst h1
    subst h2
    exact ⟨rest0, hpn, hr⟩
  · exact absurd h (by simp)

/-- The rest of a pattern-(c) match is a suffix of the input. -/
theorem match3At_rest_suffix : ∀ cs cap rest, match3At cs = some (cap, rest) →
    rest <:+ cs := by
  intro cs cap rest h
  obtain ⟨rest0, hpn, hu⟩ := match3At_cases h
  exact (usdOrEnd_suffix hu).trans ⟨cap, (parseNum_append hpn).1⟩

/-- A suffix of a comma-group list splits into trailing digits of a group
followed by whole groups. -/
theorem suffix_groupList {gs P : List Char} (hg : isGroupList gs = true)
    (hP : P <:+ gs) : ∃ ds2 gs2, P = ds2 ++ gs2 ∧
      (∀ x ∈ ds2, x.isDigit = true) ∧ isGroupList gs2 = true := by
  induction gs using isGroupList.induct with
  | case1 =>
      obtain rfl := List.suffix_nil.mp hP
      exact ⟨[], [], rfl, fun x hx => absurd hx (List.not_mem_nil x), rfl⟩
  | case2 a b c rest ih =>
      simp only [isGroupList, Bool.and_eq_true] at hg
      rcases List.suffix_cons_iff.mp hP with rfl | hP1
      · refine ⟨[], ',' :: a :: b :: c :: rest, rfl,
          fun x hx => absurd hx (List.not_mem_nil x), ?_⟩
        simp [isGroupList, hg.1.1.1, hg.1.1.2, hg.1.2, hg.2]
      · rcases List.suffix_cons_iff.mp hP1 with rfl | hP2
        · refine ⟨[a, b, c], rest, rfl, ?_, hg.2⟩
          intro x hx
          simp only [List.mem_cons, List.not_mem_nil, or_false] at hx
          rcases hx with rfl | rfl | rfl
          · exact hg.1.1.1
          · exact hg.1.1.2
          · exact hg.1.2
        · rcases List.suffix_cons_iff.mp hP2 with rfl | hP3
          · refine ⟨[b, c], rest, rfl, ?_, hg.2⟩
            intro x hx
            simp only [List.mem_cons, List.not_mem_nil, or_false] at hx
            rcases hx with rfl | rfl
            · exact hg.1.1.2
            · exact hg.1.2
          · rcases List.suffix_cons_iff.mp hP3 with rfl | hP4
            · refine ⟨[c], rest, rfl, ?_, hg.2⟩
              intro x hx
              simp only [List.mem_cons, List.not_mem_nil, or_false] at hx
              rcases hx with rfl
              exact hg.1.2
            · exact ih hg.2 hP4
  | case3 cs h1 h2 =>
      rw [isGroupList.eq_def] at hg
      split at hg
      · exact absurd rfl h1
      · rename_i a b d rest
        exact absurd rfl (h2 a b d rest)
      · exact absurd hg (by simp)

theorem suffix_append_left {l1 l2 g : List Char} (h : l1 <:+ l2) :
    l1 ++ g <:+ l2 ++ g := by
  obtain ⟨pre, rfl⟩ := h
  exact ⟨pre, (List.append_assoc pre l1 g).symm⟩

/-- Core of the domination argument: an inner strict-core parse aligned on
the same decimals is bounded by the outer value. -/
theorem match3At_dom_core {ds gs ds2 gs2 rest0 cap2 r02 : List Char}
    {a b : Char} (ha : a.isDigit = true) (hb : b.isDigit = true)
    (hne2 : ds2 ≠ []) (hds2 : ∀ x ∈ ds2, x.isDigit = true)
    (hgs2 : isGroupList gs2 = true) (hsufint : ds2 ++ gs2 <:+ ds ++ gs)
    (hpn2 : parseNum true (ds2 ++ (gs2 ++ '.' :: a :: b :: rest0)) =
      some (cap2, r02))
    {v2 : ℚ} (hv2 : pyAmount cap2 = some v2) :
    v2 ≤ (digitsToNat ((ds ++ gs).filter (fun c => c ≠ ',')) : ℚ) +
      (digitsToNat [a, b] : ℚ) / 100 := by
  have heval := parseNum_true_eval (t := rest0) hne2 hds2 hgs2 ha hb
  rw [heval, Option.some_inj, Prod.mk.injEq] at hpn2
  obtain ⟨hc2, hr2⟩ := hpn2
  rw [← hc2] at hv2
  rw [pyAmount_capture hne2 hds2 (groupList_chars hgs2) ha hb,
    Option.some_inj] at hv2
  subst hv2
  have hmono : digitsToNat ((ds2 ++ gs2).filter (fun c => c ≠ ',')) ≤
      digitsToNat ((ds ++ gs).filter (fun c => c ≠ ',')) :=
    digitsToNat_suffix (suffix_filter hsufint)
  have hq : (digitsToNat ((ds2 ++ gs2).filter (fun c => c ≠ ',')) : ℚ) ≤
      (digitsToNat ((ds ++ gs).filter (fun c => c ≠ ',')) : ℚ) := by
    exact_mod_cast hmono
  exact add_le_add_right hq _

/-- Any pattern-(c) match beginning strictly inside another pattern-(c)
match captures an amount bounded by the outer capture. -/
theorem match3At_dom : ∀ cs cap rest, match3At cs = some (cap, rest) →
    ∀ w, w <:+ cs → rest.length < w.length → w.length < cs.length →
      ∀ cap2 rest2, match3At w = some (cap2, rest2) →
        ∀ v2, pyAmount cap2 = some v2 →
          ∃ v, pyAmount cap = some v ∧ v2 ≤ v := by
  intro cs cap rest h w hsuf hlt1 hlt2 cap2 rest2 h2 v2 hv2
  obtain ⟨rest0, hpn, hu⟩ := match3At_cases h
  obtain ⟨r02, hpn2, hu2⟩ := match3At_cases h2
  obtain ⟨ds, gs, a, b, hcap, hcs, hdne, hdsd, hgsl, hgsc, ha, hb⟩ :=
    parseNum_true_decomp hpn
  have hvcap : pyAmount cap =
      some ((digitsToNat ((ds ++ gs).filter (fun c => c ≠ ',')) : ℚ) +
        (digitsToNat [a, b] : ℚ) / 100) := by
    rw [hcap]
    exact pyAmount_capture hdne hdsd hgsc ha hb
  rw [hcs, hcap] at hsuf hlt2
  by_cases hwr : w.length ≤ rest0.length
  · exfalso
    have hw0 : w <:+ rest0 := suffix_short hsuf hwr
    rcases usdOrEnd_decomp hu with ⟨h0, h1⟩ | ⟨h0, h1⟩ | ⟨SP, U, h0, hSP, hUm⟩
    · rw [h0] at hw0
      obtain rfl := List.suffix_nil.mp hw0
      rw [h1] at hlt1
      simp at hlt1
    · rw [h0] at hwr
      rw [h1, h0] at hlt1
      simp at hwr hlt1
      omega
    · rw [h0] at hw0
      have hw1 : w <:+ (SP ++ U) ++ rest := by
        rw [List.append_assoc]
        exact hw0
      obtain ⟨q, hqsuf, hqeq⟩ := suffix_append_split hw1 (le_of_lt hlt1)
      rcases hqc : q with _ | ⟨c, q2⟩
      · subst hqc
        rw [List.nil_append] at hqeq
        rw [hqeq] at hlt1
        exact absurd hlt1 (lt_irrefl _)
      · subst hqc
        have hcmem : c ∈ SP ++ U := hqsuf.subset (List.mem_cons_self c q2)
        have hcnd : c.isDigit = false := by
          rcases List.mem_append.mp hcmem with h3 | h3
          · exact (not_digit_of_pySpace (hSP c h3)).1
          · have hcl : c.toLower ∈ (['u', 's', 'd'] : List Char) := by
              rw [← hUm]
              exact List.mem_map_of_mem Char.toLower h3
            simp only [List.mem_cons, List.not_mem_nil, or_false] at hcl
            exact (not_digit_comma_dot_of_lower hcl rfl).1
        have hnone := parseNum_none_of_not_digit (b := true)
          (t := q2 ++ rest) hcnd
        rw [hqeq, show ((c :: q2) ++ rest : List Char) = c :: (q2 ++ rest)
          from rfl, hnone] at hpn2
        exact absurd hpn2 (by simp)
  · push_neg at hwr
    obtain ⟨p, hpsuf, hpeq⟩ := suffix_append_split hsuf (le_of_lt hwr)
    have hpne : p ≠ [] := by
      intro h0
      rw [h0, List.nil_append] at hpeq
      rw [hpeq] at hwr
      exact absurd hwr (lt_irrefl _)
    by_cases hp3 : p.length ≤ 3
    · exfalso
      have hp2 : p <:+ ['.', a, b] := suffix_short hpsuf hp3
      rcases List.suffix_cons_iff.mp hp2 with rfl | hq1
      · have hnone := parseNum_none_of_not_digit (b := true)
          (t := [a, b] ++ rest0) (c := '.') (by decide)
        rw [hpeq, show ((['.', a, b] : List Char) ++ rest0) =
          '.' :: ([a, b] ++ rest0) from rfl, hnone] at hpn2
        exact absurd hpn2 (by simp)
      · rcases List.suffix_cons_iff.mp hq1 with rfl | hq2
        · have hstop := @parseNum_true_stop [a, b] rest0
            (by simp)
            (by
              intro x hx
              simp only [List.mem_cons, List.not_mem_nil, or_false] at hx
              rcases hx with rfl | rfl
              · exact ha
              · exact hb)
            (rest0_head_class hu)
          rw [hpeq, hstop] at hpn2
          exact absurd hpn2 (by simp)
        · rcases List.suffix_cons_iff.mp hq2 with rfl | hq3
          · have hstop := @parseNum_true_stop [b] rest0
              (by simp)
              (by
                intro x hx
                simp only [List.mem_cons, List.not_mem_nil, or_false] at hx
                rcases hx with rfl
                exact hb)
              (rest0_head_class hu)
            rw [hpeq, hstop] at hpn2
            exact absurd hpn2 (by simp)
          · obtain rfl := List.suffix_nil.mp hq3
            exact hpne rfl
    · push_neg at hp3
      obtain ⟨P, hPsuf, hPeq⟩ := suffix_append_split hpsuf (by
        show (['.', a, b] : List Char).length ≤ p.length
        simp only [List.length_cons, List.length_nil]
        omega)
      have hPne : P ≠ [] := by
        intro h0
        rw [h0, List.nil_append] at hPeq
        rw [hPeq] at hp3
        simp at hp3
      by_cases hPg : P.length ≤ gs.length
      · have hPgs : P <:+ gs := suffix_short hPsuf hPg
        obtain ⟨ds2, gs2, hP2, hds2, hgs2⟩ := suffix_groupList hgsl hPgs
        by_cases hds2e : ds2 = []
        · exfalso
          rw [hds2e, List.nil_append] at hP2
          rcases isGroupList_head hgs2 with h4 | ⟨gt, h4⟩
          · exact hPne (hP2.trans h4)
          · have hw2 : w = ',' :: (gt ++ ['.', a, b] ++ rest0) := by
              rw [hpeq, hPeq, hP2, h4]
              simp [List.append_assoc]
            have hnone := parseNum_none_of_not_digit (b := true)
              (t := gt ++ ['.', a, b] ++ rest0) (c := ',') (by decide)
            rw [hw2, hnone] at hpn2
            exact absurd hpn2 (by simp)
        · rw [hP2] at hPgs
          have hsufint : ds2 ++ gs2 <:+ ds ++ gs :=
            hPgs.trans (List.suffix_append ds gs)
          have hw2 : w = ds2 ++ (gs2 ++ '.' :: a :: b :: rest0) := by
            rw [hpeq, hPeq, hP2]
            simp [List.append_assoc]
          rw [hw2] at hpn2
          exact ⟨_, hvcap,
            match3At_dom_core ha hb hds2e hds2 hgs2 hsufint hpn2 hv2⟩
      · push_neg at hPg
        obtain ⟨ds2, hds2suf, hds2eq⟩ := suffix_append_split hPsuf
          (le_of_lt hPg)
        have hds2ne : ds2 ≠ [] := by
          intro h0
          rw [h0, List.nil_append] at hds2eq
          rw [hds2eq] at hPg
          exact absurd hPg (lt_irrefl _)
        have hds2d : ∀ x ∈ ds2, x.isDigit = true :=
          fun x hx => hdsd x (hds2suf.subset hx)
        have hsufint : ds2 ++ gs <:+ ds ++ gs := suffix_append_left hds2suf
        have hw2 : w = ds2 ++ (gs ++ '.' :: a :: b :: rest0) := by
          rw [hpeq, hPeq, hds2eq]
          simp [List.append_assoc]
        rw [hw2] at hpn2
        exact ⟨_, hvcap,
          match3At_dom_core ha hb hds2ne hds2d hgsl hsufint hpn2 hv2⟩

/-! ### C5: the total-amount extraction against its positional specification -/

/-- The specification's description of `_extract_total_amount`: the maximum
over all candidate amounts captured by the three patterns anywhere in the
text, `0.00` when there is no candidate. -/
def specTotalAmount (text : String) : ℚ :=
  listMax ((posCands match1At text.data ++ posCands match2At text.data ++
    posCands match3At text.data).filterMap pyAmount)

/-- Pattern (c) as the claim reads it: a two-decimal number with no
requirement of a following `USD` or end of text. -/
def match3Claimed (cs : List Char) : Option (List Char × List Char) :=
  parseNum true cs

/-- The claim's candidate set: patterns (a), (b) and the anchor-free reading
of pattern (c). -/
def claimedTotalAmount (text : String) : ℚ :=
  listMax ((posCands match1At text.data ++ posCands match2At text.data ++
    posCands match3Claimed text.data).filterMap pyAmount)

/-- C5 (counterexample): on `"fee 12.34 noted"` the code extracts `0.00`
even though the claim's anchor-free reading of pattern (c) has the
mid-text two-decimal candidate `12.34`: the code's pattern (c) requires
`\s*USD` or the end of the text right after the number, so a two-decimal
number appearing mid-text without label, `$` or `USD` is not a candidate. -/
theorem c5_total_amount_counterexample :
    extract_total_amount "fee 12.34 noted" = 0 ∧
      claimedTotalAmount "fee 12.34 noted" = 617 / 50 ∧
      (617 / 50 : ℚ) ≠ 0 := by
  refine ⟨by decide, ?_, by norm_num⟩
  have h1 : posCands match1At ("fee 12.34 noted").data = [] := by decide
  have h2 : posCands match2At ("fee 12.34 noted").data = [] := by decide
  have h3 : posCands match3Claimed ("fee 12.34 noted").data =
      [['1', '2', '.', '3', '4'], ['2', '.', '3', '4']] := by decide
  unfold claimedTotalAmount
  rw [h1, h2, h3]
  simp +decide [pyAmount, parsePyDecimal, digitsToNat, List.filterMap,
    List.filter, List.takeWhile, List.dropWhile, List.foldl, listMax,
    List.foldr]
  norm_num

/-- C5 (amended): for every input text the extracted total amount is the
maximum over the amounts captured by the three patterns at all positions of
the text — with pattern (c) as written in the code, requiring `\s*USD` or
the end of the text after the two-decimal number — and `0.00` when no
pattern matches anywhere. -/
theorem c5_total_amount_amended (text : String) :
    extract_total_amount text = specTotalAmount text := by
  have h1 : scan1 text.data = posCands match1At text.data :=
    findall_eq_posCands match1At_shrinking match1At_rest_suffix
      match1At_interior_none text.data
  have h2 : scan2 text.data = posCands match2At text.data :=
    findall_eq_posCands match2At_shrinking match2At_rest_suffix
      match2At_interior_none text.data
  have h3 : listMax ((scan3 text.data).filterMap pyAmount) =
      listMax ((posCands match3At text.data).filterMap pyAmount) :=
    findall_listMax_eq_posCands match3At_shrinking match3At_rest_suffix
      match3At_dom text.data
  rw [extract_total_amount_eq_listMax]
  unfold specTotalAmount
  simp only [List.filterMap_append, listMax_append]
  rw [h1, h2, h3]

end P2P
